import Mathlib

/-!
Verification development for the `cco` cascading-configuration engine
(crate `cco`, sources `cco_document.rs`, `util.rs`, `hcl_documents.rs`,
`value.rs`, `visit/visit_traversals.rs`).

The development shallowly embeds the data model and the operations of the
crate: the HCL expression fragment the crate manipulates, the traversal
rewriters of `util.rs`, the path tree, the addressable table and the
builder of `cco_document.rs`, and the demand-driven evaluator
`CcoDocument::evaluate_in_context`.  The expression evaluator of the
external `hcl` library (`evaluate_in_place`) is not part of the
repository; it is modelled from the spec's description of its interface
(section 6, "Collaborator interfaces (consumed)").

Rust `std::collections::HashMap` iteration order (used for the
`data_groups` map in `CcoDocument::new`) is unspecified; the builder is
therefore parameterised by the order in which the groups are visited.
Panics (`assert!`, `unwrap`, out-of-bounds indexing) are modelled by
`Option`, `none` standing for a panic.  The unbounded resolver loop of
`evaluate_in_context` is modelled with explicit fuel; the development
proves the chosen fuel is never exhausted.
-/

namespace Cco

/-- Identifiers: `hcl::Identifier` is a string drawn from a restricted
alphabet; we represent it by its string contents. -/
abbrev Ident := String

/-- `str::starts_with`, written on the character lists so that it reduces
definitionally. -/
def strStartsWith (s pre : String) : Bool :=
  pre.data.isPrefixOf s.data

/-- Modelled from the spec: `hcl::Identifier::sanitized` "maps an arbitrary
label string to an identifier by replacing each disallowed character with
`_`" (spec section 3, Identifier).  The allowed alphabet is taken to be
alphanumerics, `_` and `-`. -/
def sanitize (s : String) : String :=
  String.mk (s.data.map (fun c => if c.isAlphanum || c = '_' || c = '-' then c else '_'))

/-- `hcl::TraversalOperator`, restricted to the cases the crate
distinguishes: `GetAttr`, `Index` of a number (the only `Index` shape
`SelfRewriter` inspects), and a stand-in for every other operator (splat,
non-numeric index, ...), which only matters as "not a `GetAttr`". -/
inductive TOp where
  | getAttr (k : Ident)
  | indexNum (n : Int)
  | indexOther
  deriving DecidableEq, Repr

mutual
/-- The fragment of `hcl::Expression` the crate's logic distinguishes:
literals, variables, arrays, objects (with identifier keys, the shape the
builder produces) and traversals.  Lists of subexpressions are represented
by the companion types `ExprList` and `ObjList` so that structural
recursion and decidable equality are available. -/
inductive Expr where
  | null
  | bool (b : Bool)
  | num (n : Int)
  | str (s : String)
  | var (v : Ident)
  | arr (es : ExprList)
  | obj (kvs : ObjList)
  | trav (root : Expr) (ops : List TOp)
  deriving DecidableEq, Repr

/-- A list of expressions (`Vec<Expression>`). -/
inductive ExprList where
  | nil
  | cons (head : Expr) (tail : ExprList)
  deriving DecidableEq, Repr

/-- An insertion-ordered object body (`Object<ObjectKey, Expression>`). -/
inductive ObjList where
  | nil
  | cons (key : Ident) (val : Expr) (tail : ObjList)
  deriving DecidableEq, Repr
end

/-- `hcl::Traversal`: a root expression and a chain of operators. -/
structure Traversal where
  expr : Expr
  operators : List TOp
  deriving DecidableEq, Repr

/-- Lookup in an insertion-ordered association list (first match), the
access pattern used on `IndexMap` and `HashMap` values. -/
def alookup : List (Ident × α) → Ident → Option α
  | [], _ => none
  | (k, v) :: rest, key => if k = key then some v else alookup rest key

/-- Replace the value at a key in an association list, preserving
position, as mutation through `get_mut` does. -/
def areplace (key : Ident) (v' : α) : List (Ident × α) → List (Ident × α)
  | [] => []
  | (k, v) :: rest => if k = key then (k, v') :: rest else (k, v) :: areplace key v' rest

/-- Build an `ObjList` from a list of key/expression pairs. -/
def ObjList.ofList : List (Ident × Expr) → ObjList
  | [] => .nil
  | (k, v) :: rest => .cons k v (ObjList.ofList rest)

/-- Build an `ExprList` from a list of expressions. -/
def ExprList.ofList : List Expr → ExprList
  | [] => .nil
  | e :: rest => .cons e (ExprList.ofList rest)

/-- Key lookup in an object body (insertion order, first match). -/
def ObjList.lookup? : ObjList → Ident → Option Expr
  | .nil, _ => none
  | .cons k v rest, key => if k = key then some v else rest.lookup? key

/-- Indexing into an expression list. -/
def ExprList.get? : ExprList → Nat → Option Expr
  | .nil, _ => none
  | .cons h _, 0 => some h
  | .cons _ t, n + 1 => t.get? n

mutual
/-- All variable names occurring in an expression, in evaluation order.
For a traversal only the root is listed: the restricted operator type
carries no subexpressions. -/
def varsE : Expr → List Ident
  | .null | .bool _ | .num _ | .str _ => []
  | .var v => [v]
  | .arr es => varsL es
  | .obj kvs => varsO kvs
  | .trav r _ => varsE r

/-- Variables of an expression list. -/
def varsL : ExprList → List Ident
  | .nil => []
  | .cons h t => varsE h ++ varsL t

/-- Variables of an object body. -/
def varsO : ObjList → List Ident
  | .nil => []
  | .cons _ v t => varsE v ++ varsO t
end

mutual
/-- Expressions built only from literals, variables, arrays, objects and
operator-less traversals: no traversal operators and no `null`.  On this
class the modelled evaluator can fail only with undefined-variable
errors, and its results convert to output values. -/
def Simple : Expr → Bool
  | .null => false
  | .bool _ | .num _ | .str _ | .var _ => true
  | .arr es => SimpleL es
  | .obj kvs => SimpleO kvs
  | .trav r ops => ops.isEmpty && Simple r

/-- `Simple` on an expression list. -/
def SimpleL : ExprList → Bool
  | .nil => true
  | .cons h t => Simple h && SimpleL t

/-- `Simple` on an object body. -/
def SimpleO : ObjList → Bool
  | .nil => true
  | .cons _ v t => Simple v && SimpleO t
end

mutual
/-- Fully reduced expressions: `Simple` and variable-free.  These are the
expressions the evaluator may store in the variable context. -/
def IsValue : Expr → Bool
  | .null => false
  | .bool _ | .num _ | .str _ => true
  | .var _ => false
  | .arr es => IsValueL es
  | .obj kvs => IsValueO kvs
  | .trav _ _ => false

/-- `IsValue` on an expression list. -/
def IsValueL : ExprList → Bool
  | .nil => true
  | .cons h t => IsValue h && IsValueL t

/-- `IsValue` on an object body. -/
def IsValueO : ObjList → Bool
  | .nil => true
  | .cons _ v t => IsValue v && IsValueO t
end

mutual
/-- The output value tree of `value.rs` (`Value`), restricted to the
integer fragment: the `Decimal(f64)` case is outside the embedded
fragment (the embedded numbers are integers, so conversion never produces
it). -/
inductive Value where
  | boolean (b : Bool)
  | integer (n : Int)
  | string (s : String)
  | array (vs : ValueList)
  | object (kvs : ValueObjList)
  deriving DecidableEq, Repr

/-- A list of output values. -/
inductive ValueList where
  | nil
  | cons (head : Value) (tail : ValueList)
  deriving DecidableEq, Repr

/-- An insertion-ordered output object. -/
inductive ValueObjList where
  | nil
  | cons (key : Ident) (val : Value) (tail : ValueObjList)
  deriving DecidableEq, Repr
end

mutual
/-- `impl From<hcl::Expression> for Value` of `value.rs`: literals,
arrays and objects convert; `Null` and unresolved expressions (variables,
traversals) panic, modelled by `none`. -/
def toValue : Expr → Option Value
  | .null => none
  | .bool b => some (.boolean b)
  | .num n => some (.integer n)
  | .str s => some (.string s)
  | .var _ => none
  | .arr es => (toValueL es).map .array
  | .obj kvs => (toValueO kvs).map .object
  | .trav _ _ => none

/-- Conversion of an expression list. -/
def toValueL : ExprList → Option ValueList
  | .nil => some .nil
  | .cons h t => do
      let v ← toValue h
      let vs ← toValueL t
      some (.cons v vs)

/-- Conversion of an object body. -/
def toValueO : ObjList → Option ValueObjList
  | .nil => some .nil
  | .cons k e t => do
      let v ← toValue e
      let vs ← toValueO t
      some (.cons k v vs)
end

/-! ## Path tree (`Tree` / `Node` of `cco_document.rs`) -/

/-- A path-tree node: an optional index into the addressable table and
insertion-ordered children (`indexmap::IndexMap`). -/
inductive Node where
  | mk (value : Option Nat) (children : List (Ident × Node))

/-- The node's optional addressable index. -/
def Node.value : Node → Option Nat
  | .mk v _ => v

/-- The node's ordered children. -/
def Node.children : Node → List (Ident × Node)
  | .mk _ cs => cs

/-- The tree root: an insertion-ordered map of top-level nodes. -/
abbrev Tree := List (Ident × Node)

/-- `Node::get`: most-specific-ancestor lookup.  Walks as far as matching
children exist; falls back to this node's value paired with the unmatched
tail. -/
def Node.get : Node → List Ident → Option (Nat × List Ident)
  | n, [] => n.value.map (fun r => (r, []))
  | n, k :: rest =>
    match alookup n.children k with
    | some child =>
      match child.get rest with
      | some result => some result
      | none => n.value.map (fun r => (r, k :: rest))
    | none => n.value.map (fun r => (r, k :: rest))

/-- `Tree::get`: empty paths match nothing; otherwise descend into the
root map (the root itself holds no value to fall back to). -/
def Tree.get (tree : Tree) : List Ident → Option (Nat × List Ident)
  | [] => none
  | k :: rest => (alookup tree k).bind (fun child => child.get rest)

/-- `Node::get_or_insert`: walk the path, creating empty nodes as needed;
returns the updated node together with the target node the path reaches. -/
def Node.get_or_insert : Node → List Ident → Node × Node
  | n, [] => (n, n)
  | n, k :: rest =>
    match alookup n.children k with
    | some child =>
      let r := child.get_or_insert rest
      (.mk n.value (areplace k r.1 n.children), r.2)
    | none =>
      let r := (Node.mk none []).get_or_insert rest
      (.mk n.value (n.children ++ [(k, r.1)]), r.2)

/-- `Tree::get_or_insert`.  The source indexes `key_path[0]`
unconditionally, so an empty path panics (`none`). -/
def Tree.get_or_insert (tree : Tree) : List Ident → Option (Tree × Node)
  | [] => none
  | k :: rest =>
    match alookup tree k with
    | some child =>
      let r := child.get_or_insert rest
      some (areplace k r.1 tree, r.2)
    | none =>
      let r := (Node.mk none []).get_or_insert rest
      some (tree ++ [(k, r.1)], r.2)

/-- The value held by the node at exactly this path (no ancestor
fallback); `none` when the path is absent. -/
def Node.valueAtExact : Node → List Ident → Option Nat
  | n, [] => n.value
  | n, k :: rest => (alookup n.children k).bind (fun c => c.valueAtExact rest)

/-- Exact-path value lookup from the root. -/
def Tree.valueAtExact (tree : Tree) : List Ident → Option Nat
  | [] => none
  | k :: rest => (alookup tree k).bind (fun c => c.valueAtExact rest)

/-- The node at exactly this path, if present. -/
def Node.nodeAtExact : Node → List Ident → Option Node
  | n, [] => some n
  | n, k :: rest => (alookup n.children k).bind (fun c => c.nodeAtExact rest)

/-- The node at exactly this path from the root, if present. -/
def Tree.nodeAtExact (tree : Tree) : List Ident → Option Node
  | [] => none
  | k :: rest => (alookup tree k).bind (fun c => c.nodeAtExact rest)

/-- Set the value of the node at this path (the node exists at every call
site, having been created by `get_or_insert`; an absent path is left
unchanged). -/
def Node.setValueAt : Node → List Ident → Nat → Node
  | n, [], idx => .mk (some idx) n.children
  | n, k :: rest, idx =>
    match alookup n.children k with
    | some c => .mk n.value (areplace k (c.setValueAt rest idx) n.children)
    | none => n

/-- Set the value of the node at this path from the root. -/
def Tree.setValueAt (tree : Tree) : List Ident → Nat → Tree
  | [], _ => tree
  | k :: rest, idx =>
    match alookup tree k with
    | some c => areplace k (c.setValueAt rest idx) tree
    | none => tree

/-! ## Addressables and the document (`cco_document.rs`) -/

/-- The four addressable kinds. -/
inductive Kind where
  | attribute
  | defaultAttribute
  | block
  | virtual
  deriving DecidableEq, Repr

/-- `impl Display for Kind`: the tag written into substitution
identifiers. -/
def Kind.tag : Kind → String
  | .attribute => "attribute"
  | .defaultAttribute => "defaultattribute"
  | .block => "block"
  | .virtual => "virtual"

/-- An addressable: path, kind, stored (un-rewritten) expression and the
synthesized substitution identifier. -/
structure Addressable where
  path : List Ident
  kind : Kind
  expression : Expr
  subst : Ident
  deriving DecidableEq, Repr

/-- `Addressable::new`: synthesizes
`subst = format!("cco__{kind}_{path.join("__")}")`. -/
def Addressable.new (path : List Ident) (kind : Kind) (expression : Expr) : Addressable :=
  { path := path, kind := kind, expression := expression,
    subst := "cco__" ++ kind.tag ++ "_" ++ String.intercalate "__" path }

/-- The built document: the addressable table and the path tree whose
node values index into it. -/
structure CcoDocument where
  addressables : List Addressable
  tree : Tree

/-- The subst of the addressable at a table index.  Every call site
reaches only in-range indices (tree values index the table); the
out-of-range default stands for the source's panicking index. -/
def CcoDocument.substAt (d : CcoDocument) (idx : Nat) : Ident :=
  ((d.addressables.get? idx).map (fun a => a.subst)).getD ""

/-- `CcoDocument::insert`: locate/create the node, fail with the existing
index when occupied, else allocate the next table index.  The outer
`Option` models the `Tree::get_or_insert` panic on an empty path. -/
def CcoDocument.insert (d : CcoDocument) (kind : Kind) (path : List Ident)
    (expression : Expr) : Option (CcoDocument × Option Nat) :=
  match Tree.get_or_insert d.tree path with
  | none => none
  | some (tree', node) =>
    match node.value with
    | some existing => some ({ d with tree := tree' }, some existing)
    | none =>
      let index := d.addressables.length
      some ({ addressables := d.addressables ++ [Addressable.new path kind expression],
              tree := Tree.setValueAt tree' path index }, none)

/-- `CcoDocument::get_by_subst`: first table entry with this subst. -/
def CcoDocument.get_by_subst (d : CcoDocument) (subst : Ident) : Option Addressable :=
  d.addressables.find? (fun addr => addr.subst == subst)

/-- `CcoDocument::get_most_specific_node`: most-specific-ancestor lookup,
returning the ancestor's subst and the matched path length. -/
def CcoDocument.get_most_specific_node (d : CcoDocument) (path : List Ident) :
    Option (Ident × Nat) :=
  (Tree.get d.tree path).map (fun r => (d.substAt r.1, path.length - r.2.length))

/-! ## Traversal rewriting (`util.rs`) -/

/-- `Traversal::squash`: if the root expression is itself a traversal,
merge the two into one. -/
def Traversal.squash (t : Traversal) : Traversal :=
  match t.expr with
  | .trav inner innerOps => { expr := inner, operators := innerOps ++ t.operators }
  | _ => t

/-- `Traversal::apply_substitution`: replace the root expression and
remove the first `path_len - 1` operators, then squash.  `path_len = 0`
is the `checked_sub(1).expect(..)` panic (`none`); every call site passes
`path_len ≥ 1`. -/
def Traversal.apply_substitution (t : Traversal) (e : Expr) (path_len : Nat) :
    Option Traversal :=
  match path_len with
  | 0 => none
  | remove + 1 =>
    let ops :=
      if t.operators.length ≤ remove then []
      else (t.operators.rotate remove).take (t.operators.length - remove)
    some (Traversal.squash { expr := e, operators := ops })

/-- The identifiers of the leading `GetAttr` operators, stopping at the
first operator of any other shape. -/
def leadingGetAttrs : List TOp → List Ident
  | .getAttr k :: rest => k :: leadingGetAttrs rest
  | _ => []

/-- `Traversal::get_longest_path`: the root variable name followed by the
leading `GetAttr` identifiers; empty when the root is not a variable. -/
def Traversal.get_longest_path (t : Traversal) : List Ident :=
  match t.expr with
  | .var v => v :: leadingGetAttrs t.operators
  | _ => []

/-- `AttributeReferenceRewriter::visit_mut`: skip already-rewritten
traversals (root variable starting with `cco__`), else substitute the
most specific matching addressable. -/
def AttributeReferenceRewriter.visit_mut (d : CcoDocument) (t : Traversal) :
    Option Traversal :=
  let alreadyRewritten :=
    match t.expr with
    | .var v => strStartsWith v "cco__"
    | _ => false
  if alreadyRewritten then some t
  else
    match d.get_most_specific_node t.get_longest_path with
    | none => some t
    | some (subst, len) => t.apply_substitution (.var subst) len

/-- `hcl::Number::as_u64` on the embedded integer numbers. -/
def numAsU64 (n : Int) : Option Nat :=
  if n < 0 then none else some n.toNat

/-- `SelfRewriter::visit_mut`: on a traversal rooted at the variable
`self`, an in-range integer index `self[i]` becomes the string literal
`block_name[i]` (consuming two path elements); otherwise `self` becomes
the traversal `block_name[0].…block_name[k]` (consuming one).  An empty
`block_name` panics in the fallback (`path.next().unwrap()`). -/
def SelfRewriter.visit_mut (blockName : List Ident) (t : Traversal) :
    Option Traversal :=
  match t.expr with
  | .var v =>
    if v = "self" then
      let fallback : Option Traversal :=
        match blockName with
        | [] => none
        | l0 :: rest =>
          t.apply_substitution (.trav (.var l0) (rest.map .getAttr)) 1
      match t.operators.head? with
      | some (.indexNum n) =>
        match numAsU64 n with
        | some idx =>
          if h : idx < blockName.length then
            t.apply_substitution (.str (blockName.get ⟨idx, h⟩)) 2
          else fallback
        | none => fallback
      | _ => fallback
    else some t
  | _ => some t

/-! ## The traversal visitor (`visit/visit_traversals.rs`) -/

mutual
/-- Node count of an expression, used to bound the visitor recursion. -/
def sizeE : Expr → Nat
  | .null | .bool _ | .num _ | .str _ | .var _ => 1
  | .arr es => 1 + sizeL es
  | .obj kvs => 1 + sizeO kvs
  | .trav r _ => 1 + sizeE r

/-- Node count of an expression list. -/
def sizeL : ExprList → Nat
  | .nil => 1
  | .cons h t => 1 + sizeE h + sizeL t

/-- Node count of an object body. -/
def sizeO : ObjList → Nat
  | .nil => 1
  | .cons _ v t => 1 + sizeE v + sizeO t
end

mutual
/-- `visit_traversals_mut` for expressions, parameterised by the visitor.
A standalone variable is visited wrapped in an operator-less traversal
and must stay a variable (else the source panics, modelled by `none`); a
traversal is visited first, then the walk descends into its (possibly
rewritten) root.  The descent into a rewritten root is not structurally
decreasing, so the walk carries fuel; for both rewriters a rewritten root
is a variable, a string literal or the structurally smaller original
root, so the generous bound used by `rewriteWith` is never exhausted. -/
def visitTraversals (f : Traversal → Option Traversal) : Nat → Expr → Option Expr
  | 0, _ => none
  | _ + 1, .null => some .null
  | _ + 1, .bool b => some (.bool b)
  | _ + 1, .num n => some (.num n)
  | _ + 1, .str s => some (.str s)
  | _ + 1, .var v => do
      let t' ← f { expr := .var v, operators := [] }
      match t'.expr with
      | .var v' => some (.var v')
      | _ => none
  | fuel + 1, .arr es => (visitTraversalsL f fuel es).map .arr
  | fuel + 1, .obj kvs => (visitTraversalsO f fuel kvs).map .obj
  | fuel + 1, .trav r ops => do
      let t' ← f { expr := r, operators := ops }
      let e' ← visitTraversals f fuel t'.expr
      some (.trav e' t'.operators)

/-- The visitor walk over an expression list. -/
def visitTraversalsL (f : Traversal → Option Traversal) : Nat → ExprList → Option ExprList
  | 0, _ => none
  | _ + 1, .nil => some .nil
  | fuel + 1, .cons h t => do
      let h' ← visitTraversals f fuel h
      let t' ← visitTraversalsL f fuel t
      some (.cons h' t')

/-- The visitor walk over an object body. -/
def visitTraversalsO (f : Traversal → Option Traversal) : Nat → ObjList → Option ObjList
  | 0, _ => none
  | _ + 1, .nil => some .nil
  | fuel + 1, .cons k v t => do
      let v' ← visitTraversals f fuel v
      let t' ← visitTraversalsO f fuel t
      some (.cons k v' t')
end

/-- Run a rewriter over a whole expression with fuel that dominates the
visitor recursion depth. -/
def rewriteWith (f : Traversal → Option Traversal) (e : Expr) : Option Expr :=
  visitTraversals f (2 * sizeE e + 4) e

/-- The rewrite `get_by_subst_and_rewrite` applies to a found
addressable: clone, expand `self` against the addressable's block path
(the path without its final element), then rewrite attribute
references. -/
def CcoDocument.rewriteFor (d : CcoDocument) (a : Addressable) : Option Expr :=
  (rewriteWith (SelfRewriter.visit_mut a.path.dropLast) a.expression).bind
    (rewriteWith (AttributeReferenceRewriter.visit_mut d))

/-- `CcoDocument::get_by_subst_and_rewrite`: the outer `Option` is the
lookup, the inner `Option` a panic during rewriting. -/
def CcoDocument.get_by_subst_and_rewrite (d : CcoDocument) (ident : Ident) :
    Option (Option Expr) :=
  (d.get_by_subst ident).map (fun addressable => d.rewriteFor addressable)

/-! ## The document store (`hcl_documents.rs`) and the builder
(`CcoDocument::new`) -/

/-- A parsed root block: identifier, raw labels and the attributes of its
body (key/expression pairs in source order).  Nested blocks inside a body
are not addressable and do not participate in the builder. -/
structure RootBlock where
  ident : Ident
  labels : List String
  attributes : List (Ident × Expr)
  deriving DecidableEq, Repr

instance : Inhabited RootBlock := ⟨⟨"", [], []⟩⟩

/-- `HclDocuments`: the ordered root attributes and root blocks of all
loaded documents; positions are the stable indices.  Source paths are
only used for messages and are omitted. -/
structure HclDocuments where
  rootAttributes : List (Ident × Expr)
  rootBlocks : List RootBlock
  deriving DecidableEq, Repr

/-- The Phase-1 issues. -/
inductive Issue where
  | rootAttribute (index : Nat)
  | unknownBlockType (index : Nat)
  | dataBlockLabelMissing (index : Nat)
  | dataBlockLabelCollision (existing : Nat) (new : Nat)
  | dataBlockLabelMismatch (existing : Nat) (new : Nat)
  | typeBlockLabelMissing (index : Nat)
  | typeBlockTooManyLabels (index : Nat)
  | typeBlockLabelCollision (existing : Nat) (new : Nat)
  deriving DecidableEq, Repr

/-- `DataBlock`: the root-block index and sanitized labels. -/
structure DataBlock where
  blockIndex : Nat
  identifiers : List Ident
  deriving DecidableEq, Repr

/-- `DataBlock::new`. -/
def DataBlock.new (blockIndex : Nat) (b : RootBlock) : DataBlock :=
  ⟨blockIndex, b.labels.map sanitize⟩

/-- The state accumulated by the root-structure validation pass:
collected issues, the `data_groups` map (keyed by first sanitized label;
modelled as an association list, with the unspecified `HashMap` iteration
order supplied separately to Phase 2) and the `type_specs` map. -/
structure Phase1State where
  issues : List Issue
  dataGroups : List (Ident × List DataBlock)
  typeSpecs : List (Ident × Nat)
  deriving DecidableEq, Repr

/-- Phase 1 of `CcoDocument::new`: dispatch each root block.  The
missing-label `data` arm ends with `break`, so the remaining root blocks
are not examined; every other arm continues. -/
def phase1Blocks : List (Nat × RootBlock) → Phase1State → Phase1State
  | [], st => st
  | (index, b) :: rest, st =>
    if b.ident = "data" then
      if b.labels.isEmpty then
        { st with issues := st.issues ++ [.dataBlockLabelMissing index] }
      else
        let db := DataBlock.new index b
        let key := db.identifiers.headD ""
        let groups :=
          if (alookup st.dataGroups key).isSome then st.dataGroups
          else st.dataGroups ++ [(key, [])]
        let group := (alookup groups key).getD []
        match group.head? with
        | some existing =>
          if existing.identifiers.length ≠ b.labels.length then
            let issues' := st.issues ++ [.dataBlockLabelMismatch existing.blockIndex index]
            phase1Blocks rest { st with dataGroups := groups, issues := issues' }
          else
            match group.find? (fun ex => ex.identifiers == db.identifiers) with
            | some collide =>
              let issues' := st.issues ++ [.dataBlockLabelCollision collide.blockIndex index]
              phase1Blocks rest { st with dataGroups := groups, issues := issues' }
            | none =>
              phase1Blocks rest { st with dataGroups := areplace key (group ++ [db]) groups }
        | none =>
          phase1Blocks rest { st with dataGroups := areplace key (group ++ [db]) groups }
    else if b.ident = "type" then
      if b.labels.isEmpty then
        phase1Blocks rest { st with issues := st.issues ++ [.typeBlockLabelMissing index] }
      else if 1 < b.labels.length then
        phase1Blocks rest { st with issues := st.issues ++ [.typeBlockTooManyLabels index] }
      else
        let typeName := sanitize (b.labels.headD "")
        match alookup st.typeSpecs typeName with
        | some existing =>
          phase1Blocks rest
            { st with issues := st.issues ++ [.typeBlockLabelCollision existing index] }
        | none =>
          phase1Blocks rest { st with typeSpecs := st.typeSpecs ++ [(typeName, index)] }
    else
      phase1Blocks rest { st with issues := st.issues ++ [.unknownBlockType index] }

/-- Phase 1 of `CcoDocument::new`: a `RootAttribute` issue for every root
attribute, then the block pass. -/
def phase1 (store : HclDocuments) : Phase1State :=
  phase1Blocks store.rootBlocks.enum
    ⟨(List.range store.rootAttributes.length).map Issue.rootAttribute, [], []⟩

/-- The empty document the builder starts from. -/
def emptyDoc : CcoDocument := ⟨[], []⟩

/-- An insert whose failure is an invariant violation: `assert!(..)` on
the result, so a collision panics (`none`). -/
def insertAsserted (d : CcoDocument) (kind : Kind) (path : List Ident) (e : Expr) :
    Option CcoDocument :=
  match d.insert kind path e with
  | none => none
  | some (_, some _) => none
  | some (d', none) => some d'

/-- An insert whose failure is silently ignored (`let _ = ..`). -/
def insertIgnored (d : CcoDocument) (kind : Kind) (path : List Ident) (e : Expr) :
    Option CcoDocument :=
  match d.insert kind path e with
  | none => none
  | some (d', _) => some d'

/-- Phase 2, step 1: insert every direct attribute of a data block with
kind `Attribute`; a collision fails the `assert!`. -/
def processDirectAttrs (d : CcoDocument) (ids : List Ident) :
    List (Ident × Expr) → Option CcoDocument
  | [] => some d
  | (key, value) :: rest => do
    let d' ← insertAsserted d .attribute (ids ++ [sanitize key]) value
    processDirectAttrs d' ids rest

/-- Phase 2, step 2: insert every attribute of the matching type block
with kind `DefaultAttribute`; collisions (a direct attribute already at
the path) are ignored. -/
def processDefaultAttrs (d : CcoDocument) (ids : List Ident) :
    List (Ident × Expr) → Option CcoDocument
  | [] => some d
  | (key, value) :: rest => do
    let d' ← insertIgnored d .defaultAttribute (ids ++ [sanitize key]) value
    processDefaultAttrs d' ids rest

/-- The rollup object for a tree node: each valued child becomes a
key/variable-reference pair, in child insertion order. -/
def rollupObject (d : CcoDocument) (node : Node) : Expr :=
  .obj (ObjList.ofList (node.children.filterMap
    (fun kc => kc.2.value.map (fun i => (kc.1, Expr.var (d.substAt i))))))

/-- Phase 2, step 2 dispatch: apply the matching type block's default
attributes, if one exists for the block's first label. -/
def processBlockDefaults (store : HclDocuments) (typeSpecs : List (Ident × Nat))
    (d1 : CcoDocument) (db : DataBlock) : Option CcoDocument :=
  match alookup typeSpecs (db.identifiers.headD "") with
  | some typeIdx =>
    processDefaultAttrs d1 db.identifiers (store.rootBlocks.getD typeIdx default).attributes
  | none => some d1

/-- Phase 2, step 3: `tree.get_or_insert` at the block's label path (a
mutation: missing nodes are created), then the `Block` rollup insert. -/
def processBlockRollup (d2 : CcoDocument) (db : DataBlock) : Option CcoDocument :=
  match Tree.get_or_insert d2.tree db.identifiers with
  | none => none
  | some (tree', node) =>
    let d3 := { d2 with tree := tree' }
    insertAsserted d3 .block db.identifiers (rollupObject d3 node)

/-- Phase 2 for one data block: direct attributes, default attributes,
then the `Block` rollup at the block's label path. -/
def processBlock (store : HclDocuments) (typeSpecs : List (Ident × Nat))
    (d : CcoDocument) (db : DataBlock) : Option CcoDocument := do
  let d1 ← processDirectAttrs d db.identifiers
    (store.rootBlocks.getD db.blockIndex default).attributes
  let d2 ← processBlockDefaults store typeSpecs d1 db
  processBlockRollup d2 db

/-- Phase 3: collect the top-level tree nodes without a value, then
insert a `Virtual` rollup for each (insert failures ignored; the paths
are non-empty, so the `none` branch is dead). -/
def virtualRollups (d : CcoDocument) : CcoDocument :=
  let rootGroups : List (Ident × Expr) :=
    d.tree.filterMap (fun kn =>
      match kn.2.value with
      | some _ => none
      | none => some (kn.1, rollupObject d kn.2))
  rootGroups.foldl (fun acc p =>
    match acc.insert .virtual [p.1] p.2 with
    | some (d', _) => d'
    | none => acc) d

/-- The outcome of `CcoDocument::new`: a panic, the collected issues, or
the built document. -/
inductive BuildResult where
  | panicked
  | errs (issues : List Issue)
  | built (doc : CcoDocument)

/-- `CcoDocument::new`, parameterised by `groupOrder`: the order in which
the `std::collections::HashMap` of data groups yields its entries at the
start of Phase 2, which the source leaves to the hash map's unspecified
iteration order (each key exactly once). -/
def CcoDocument.new (store : HclDocuments) (groupOrder : List Ident) : BuildResult :=
  let st := phase1 store
  if st.issues.isEmpty then
    let blocks := groupOrder.flatMap (fun k => (alookup st.dataGroups k).getD [])
    match List.foldlM (processBlock store st.typeSpecs) emptyDoc blocks with
    | none => .panicked
    | some d => .built (virtualRollups d)
  else .errs st.issues

/-! ## The demand-driven evaluator (`CcoDocument::evaluate_in_context`)

The inner expression evaluator stands in for the external
`hcl::eval::Evaluate::evaluate_in_place`, modelled from the spec's
collaborator interface: it reduces an expression under a variable
context, reporting the first error in evaluation order, with an
`UndefinedVar` case for unbound variables. -/

/-- An error of the modelled expression evaluator: the `UndefinedVar`
kind the resolver inspects, or any other error kind. -/
inductive EvalErr where
  | undefinedVar (v : Ident)
  | otherErr
  deriving DecidableEq, Repr

/-- The variable context (`hcl::eval::Context`): bindings introduced by
`declare_var`, looked up front-to-back. -/
abbrev Context := List (Ident × Expr)

/-- Application of traversal operators to a reduced expression;
anything but a hit is some non-`UndefinedVar` evaluation error. -/
def applyTOps : Expr → List TOp → Except EvalErr Expr
  | e, [] => .ok e
  | e, .getAttr k :: rest =>
    match e with
    | .obj kvs =>
      match kvs.lookup? k with
      | some v => applyTOps v rest
      | none => .error .otherErr
    | _ => .error .otherErr
  | e, .indexNum n :: rest =>
    match e, numAsU64 n with
    | .arr es, some i =>
      match es.get? i with
      | some v => applyTOps v rest
      | none => .error .otherErr
    | _, _ => .error .otherErr
  | _, .indexOther :: _ => .error .otherErr

mutual
/-- Modelled from the spec: `evaluate_in_place` on the embedded
fragment.  Literals reduce to themselves, variables to their binding
(else `UndefinedVar`), arrays and objects pointwise left-to-right, and a
traversal evaluates its root and applies the operators. -/
def evalExpr (ctx : Context) : Expr → Except EvalErr Expr
  | .null => .ok .null
  | .bool b => .ok (.bool b)
  | .num n => .ok (.num n)
  | .str s => .ok (.str s)
  | .var v =>
    match alookup ctx v with
    | some e => .ok e
    | none => .error (.undefinedVar v)
  | .arr es => (evalList ctx es).map .arr
  | .obj kvs => (evalObj ctx kvs).map .obj
  | .trav r ops => do
    let r' ← evalExpr ctx r
    applyTOps r' ops

/-- Pointwise evaluation of an expression list, first error wins. -/
def evalList (ctx : Context) : ExprList → Except EvalErr ExprList
  | .nil => .ok .nil
  | .cons h t => do
    let h' ← evalExpr ctx h
    let t' ← evalList ctx t
    .ok (.cons h' t')

/-- Pointwise evaluation of an object body, first error wins. -/
def evalObj (ctx : Context) : ObjList → Except EvalErr ObjList
  | .nil => .ok .nil
  | .cons k v t => do
    let v' ← evalExpr ctx v
    let t' ← evalObj ctx t
    .ok (.cons k v' t')
end

/-- The errors `evaluate_in_context` can return.  `evalFailed` carries
the first evaluation error (`Err(eval_errors.into())`), the loop errors
are the two `anyhow::bail!` cycle messages, `missingDependency` the
third, `panicked` models the panics reachable from the function, and
`fuelExhausted` is the fuel model's escape hatch, proven unreachable. -/
inductive CcoError where
  | evalFailed (first : EvalErr)
  | loopAt (path : List Ident) (v : Ident)
  | loopRaw (v : Ident)
  | missingDependency (v : Ident)
  | panicked
  | fuelExhausted
  deriving DecidableEq, Repr

/-- The resolver state: the variable context and the work stack (top
first; the bottom frame is `("output", root expression)`). -/
structure EvalState where
  ctx : Context
  stack : List (Ident × Expr)

/-- One resolver iteration either finishes with a result or steps to a
new state. -/
inductive StepRes where
  | done (r : Except CcoError Expr)
  | next (s : EvalState)

/-- One iteration of the `while let` loop of `evaluate_in_context`: pop
the top frame and attempt evaluation; on success return (stack empty) or
bind into the context; on failure inspect the first error: pass
non-`UndefinedVar` and non-`cco__` errors through, report a cycle when
the variable is already on the stack (the popped frame was pushed back
first, so the test includes it), else push the dependency's rewritten
expression.  An empty stack is the loop's trailing `unreachable!()`. -/
def evalStep (d : CcoDocument) (s : EvalState) : StepRes :=
  match s.stack with
  | [] => .done (.error .panicked)
  | (current, e) :: rest =>
    match evalExpr s.ctx e with
    | .ok e' =>
      if rest.isEmpty then .done (.ok e')
      else .next ⟨(current, e') :: s.ctx, rest⟩
    | .error err =>
      match err with
      | .otherErr => .done (.error (.evalFailed err))
      | .undefinedVar var =>
        if strStartsWith var "cco__" then
          if ((current, e) :: rest).any (fun frame => frame.1 == var) then
            match d.get_by_subst var with
            | some resolved => .done (.error (.loopAt resolved.path var))
            | none => .done (.error (.loopRaw var))
          else
            match d.get_by_subst_and_rewrite var with
            | none => .done (.error (.missingDependency var))
            | some none => .done (.error .panicked)
            | some (some expr) => .next ⟨s.ctx, (var, expr) :: (current, e) :: rest⟩
        else .done (.error (.evalFailed err))

/-- Run the resolver loop for at most `fuel` iterations. -/
def evalLoop (d : CcoDocument) : Nat → EvalState → Option (Except CcoError Expr)
  | 0, _ => none
  | fuel + 1, s =>
    match evalStep d s with
    | .done r => some r
    | .next s' => evalLoop d fuel s'

/-- The state after `n` resolver iterations, `none` once the loop has
finished. -/
def stepN (d : CcoDocument) : Nat → EvalState → Option EvalState
  | 0, s => some s
  | n + 1, s =>
    match evalStep d s with
    | .done _ => none
    | .next s' => stepN d n s'

/-- The fuel `evaluate_in_context` runs with; it strictly dominates the
resolver measure, so the loop always finishes within it. -/
def evalFuel (d : CcoDocument) : Nat := 2 * d.addressables.length + 2

/-- `CcoDocument::evaluate_in_context`: rewrite references in the root
expression, then run the resolver loop from
`stack = [("output", rewritten)]` with an empty context, converting a
successful reduction into an output value. -/
def CcoDocument.evaluate_in_context (d : CcoDocument) (expression : Expr) :
    Except CcoError Value :=
  match rewriteWith (AttributeReferenceRewriter.visit_mut d) expression with
  | none => .error .panicked
  | some e' =>
    match evalLoop d (evalFuel d) ⟨[], [("output", e')]⟩ with
    | none => .error .fuelExhausted
    | some (.ok res) =>
      match toValue res with
      | some v => .ok v
      | none => .error .panicked
    | some (.error err) => .error err

/-! ## Result extractors and concrete documents used by the theorems -/

/-- The built document of a build result, if it succeeded. -/
def BuildResult.doc? : BuildResult → Option CcoDocument
  | .built d => some d
  | _ => none

/-- The issue list of a build result, if Phase 1 failed. -/
def BuildResult.issuesOf : BuildResult → Option (List Issue)
  | .errs issues => some issues
  | _ => none

/-- The addressable paths of a built document (empty on error/panic):
the observable ordering of the table. -/
def BuildResult.pathsOf : BuildResult → List (List Ident)
  | .built d => d.addressables.map (fun a => a.path)
  | _ => []

/-- The document of a build result, defaulting to the empty document. -/
def BuildResult.docD (r : BuildResult) : CcoDocument :=
  (r.doc?).getD emptyDoc

/-- A default addressable, for `getD` on table lookups in witnesses. -/
def defaultAddressable : Addressable := Addressable.new [] .attribute .null

/-- The table entry at an index, defaulting when out of range. -/
def addrAt (d : CcoDocument) (i : Nat) : Addressable :=
  (d.addressables[i]?).getD defaultAddressable

/-- Spec scenario "Default attribute inheritance":
`type kind { version = 1 }`, `data kind one {}`,
`data kind two { version = 2 }`. -/
def storeDefaults : HclDocuments := ⟨[], [
  ⟨"type", ["kind"], [("version", .num 1)]⟩,
  ⟨"data", ["kind", "one"], []⟩,
  ⟨"data", ["kind", "two"], [("version", .num 2)]⟩]⟩

/-- The document built from `storeDefaults`. -/
def docDefaults : CcoDocument := (CcoDocument.new storeDefaults ["kind"]).docD

/-- Spec scenario "Cross-reference via path":
`data x a { v = 1 }`, `data x b { v = x.a.v }`. -/
def storeCross : HclDocuments := ⟨[], [
  ⟨"data", ["x", "a"], [("v", .num 1)]⟩,
  ⟨"data", ["x", "b"], [("v", .trav (.var "x") [.getAttr "a", .getAttr "v"])]⟩]⟩

/-- The document built from `storeCross`. -/
def docCross : CcoDocument := (CcoDocument.new storeCross ["x"]).docD

/-- Spec scenario "Cycle detection":
`data x a { v = x.b.v }`, `data x b { v = x.a.v }`. -/
def storeCycle : HclDocuments := ⟨[], [
  ⟨"data", ["x", "a"], [("v", .trav (.var "x") [.getAttr "b", .getAttr "v"])]⟩,
  ⟨"data", ["x", "b"], [("v", .trav (.var "x") [.getAttr "a", .getAttr "v"])]⟩]⟩

/-- The document built from `storeCycle`. -/
def docCycle : CcoDocument := (CcoDocument.new storeCycle ["x"]).docD

/-- Two data blocks whose distinct label paths `[a__b]` and `[a, b]`
join to the same double-underscore string. -/
def storeJoinClash : HclDocuments := ⟨[], [
  ⟨"data", ["a__b"], []⟩,
  ⟨"data", ["a", "b"], []⟩]⟩

/-- The document built from `storeJoinClash` (groups in first-occurrence
order). -/
def docJoinClash : CcoDocument := (CcoDocument.new storeJoinClash ["a__b", "a"]).docD

/-- A label-less data block followed by a root block of unknown type:
input for the `break` in the missing-label arm. -/
def storeBreak : HclDocuments := ⟨[], [
  ⟨"data", [], []⟩,
  ⟨"unknownblock", [], []⟩]⟩

/-- Two data blocks in different groups: input whose Phase-2 output
depends on the group iteration order. -/
def storeTwoGroups : HclDocuments := ⟨[], [
  ⟨"data", ["a", "x"], []⟩,
  ⟨"data", ["b", "y"], []⟩]⟩

/-- Mutually referencing attributes where the first attribute also
references an unknown user variable before the cycle reference. -/
def storeCycleUserVar : HclDocuments := ⟨[], [
  ⟨"data", ["x", "a"], [("v", .arr (.cons (.var "oops")
    (.cons (.trav (.var "x") [.getAttr "b", .getAttr "v"]) .nil)))]⟩,
  ⟨"data", ["x", "b"], [("v", .trav (.var "x") [.getAttr "a", .getAttr "v"])]⟩]⟩

/-- The document built from `storeCycleUserVar`. -/
def docCycleUserVar : CcoDocument := (CcoDocument.new storeCycleUserVar ["x"]).docD

/-- A traversal `x.a.v[0]` whose leading path fully matches an
addressable of `docCross`. -/
def travCrossWitness : Traversal :=
  ⟨.var "x", [.getAttr "a", .getAttr "v", .indexNum 0]⟩

/-- A traversal `self[1].z`. -/
def travSelfWitness : Traversal :=
  ⟨.var "self", [.indexNum 1, .getAttr "z"]⟩

/-! ## Predicates about the resolver, used by the evaluation theorems -/

/-- A bare reference to a substitution identifier, in either of the two
shapes rewriting produces: a plain variable, or the variable wrapped in
an operator-less traversal (a fully matched path). -/
def PureRef (e : Expr) (v : Ident) : Prop :=
  e = .var v ∨ e = .trav (.var v) []

/-- The distinct substitution identifiers of the table. -/
def substList (d : CcoDocument) : List Ident :=
  (d.addressables.map (fun a => a.subst)).dedup

/-- The resolver measure: twice the number of distinct substs neither
bound in the context nor on the stack, plus the stack height.  Every
resolver step strictly decreases it. -/
def measureOf (d : CcoDocument) (s : EvalState) : Nat :=
  2 * (substList d).countP
    (fun x => (alookup s.ctx x).isNone && !(s.stack.any (fun f => f.1 == x))) +
  s.stack.length

/-- A variable the resolver can always service: a reserved `cco__` name
with a matching addressable. -/
def GoodVar (d : CcoDocument) (v : Ident) : Prop :=
  strStartsWith v "cco__" = true ∧ (d.get_by_subst v).isSome = true

instance (d : CcoDocument) (v : Ident) : Decidable (GoodVar d v) :=
  inferInstanceAs (Decidable
    (strStartsWith v "cco__" = true ∧ (d.get_by_subst v).isSome = true))

/-- The closure condition of the evaluation-law claim: every
addressable's expression rewrites without panicking to a `Simple`
expression (no traversal operators, no `null`) whose variables are all
resolvable substs of strictly smaller rank.  The rank function is the
formalisation of "the dependency graph has no cycles". -/
def GoodClosure (d : CcoDocument) (rank : Ident → Nat) : Prop :=
  ∀ a ∈ d.addressables, ∃ e, d.rewriteFor a = some e ∧ Simple e = true ∧
    ∀ v ∈ varsE e, GoodVar d v ∧ rank v < rank a.subst

/-- The resolver loop invariant: the context binds distinct reserved
names to reduced values, disjoint from the stack; the stack is a block
of dependency frames (each holding its subst's rewritten expression)
over the root `output` frame, with ranks strictly increasing towards
the bottom. -/
def EvalInv (d : CcoDocument) (E' : Expr) (rank : Ident → Nat) (s : EvalState) : Prop :=
  (s.ctx.map Prod.fst).Nodup ∧
  (∀ kv ∈ s.ctx, IsValue kv.2 = true) ∧
  (∀ kv ∈ s.ctx, ∀ fr ∈ s.stack, kv.1 ≠ fr.1) ∧
  ∃ frames, s.stack = frames ++ [("output", E')] ∧
    (∀ fr ∈ frames, strStartsWith fr.1 "cco__" = true ∧
       d.get_by_subst_and_rewrite fr.1 = some (some fr.2)) ∧
    (frames.map Prod.fst).Chain' (fun x y => rank x < rank y)

/-- A rank function for the cross-reference document: attributes below
blocks below the virtual rollup. -/
def rankCross : Ident → Nat := fun s =>
  if s = "cco__attribute_x__a__v" then 0
  else if s = "cco__attribute_x__b__v" then 1
  else if s = "cco__block_x__a" then 2
  else if s = "cco__block_x__b" then 2
  else 3

/-- The user expression `x.b.v` demanding the cross-referencing
attribute. -/
def exprDemandCross : Expr := .trav (.var "x") [.getAttr "b", .getAttr "v"]

/-- The user expression `x.a.v` demanding one side of the cycle. -/
def exprDemandCycle : Expr := .trav (.var "x") [.getAttr "a", .getAttr "v"]

/-- The cycle of substitution identifiers of `storeCycle`. -/
def cycleSubsts : List Ident :=
  ["cco__attribute_x__a__v", "cco__attribute_x__b__v"]

/-- An expression that refers to nothing and has no cycles, yet indexes
an empty array: `[][0]`. -/
def exprIndexEmpty : Expr := .trav (.arr .nil) [.indexNum 0]

/-! ## Lemmas: association lists -/

theorem alookup_areplace_self {α : Type} (k : Ident) (v' : α) (l : List (Ident × α)) (x : α)
    (h : alookup l k = some x) : alookup (areplace k v' l) k = some v' := by
  induction l with
  | nil => simp [alookup] at h
  | cons hd tl ih =>
    obtain ⟨k', v⟩ := hd
    by_cases hk : k' = k
    · subst hk
      simp [alookup, areplace]
    · simp [alookup, areplace, hk] at h ⊢
      exact ih h

theorem areplace_of_none {α : Type} (k : Ident) (v' : α) (l : List (Ident × α))
    (h : alookup l k = none) : areplace k v' l = l := by
  induction l with
  | nil => rfl
  | cons hd tl ih =>
    obtain ⟨k', v⟩ := hd
    by_cases hk : k' = k
    · simp [alookup, hk] at h
    · simp [alookup, hk] at h
      simp [areplace, hk, ih h]

theorem alookup_areplace_other {α : Type} (k key : Ident) (v' : α) (l : List (Ident × α))
    (hne : key ≠ k) : alookup (areplace k v' l) key = alookup l key := by
  induction l with
  | nil => rfl
  | cons hd tl ih =>
    obtain ⟨k', v⟩ := hd
    simp only [areplace]
    by_cases hk : k' = k
    · have hne' : ¬ k' = key := fun h => hne (by rw [← h, hk])
      simp [if_pos hk, alookup, hne']
    · simp only [if_neg hk, alookup]
      by_cases hkey : k' = key
      · simp [hkey]
      · simp [hkey, ih]

theorem alookup_append_left {α : Type} (l l2 : List (Ident × α)) (key : Ident) (x : α)
    (h : alookup l key = some x) : alookup (l ++ l2) key = some x := by
  induction l with
  | nil => simp [alookup] at h
  | cons hd tl ih =>
    obtain ⟨k', v⟩ := hd
    by_cases hk : k' = key
    · simp [alookup, hk] at h ⊢
      exact h
    · simp [alookup, hk] at h ⊢
      exact ih h

theorem alookup_append_right {α : Type} (l l2 : List (Ident × α)) (key : Ident)
    (h : alookup l key = none) : alookup (l ++ l2) key = alookup l2 key := by
  induction l with
  | nil => rfl
  | cons hd tl ih =>
    obtain ⟨k', v⟩ := hd
    by_cases hk : k' = key
    · simp [alookup, hk] at h
    · simp [alookup, hk] at h ⊢
      exact ih h

/-! ## Lemmas: `get_or_insert` and `setValueAt` against exact lookups -/

theorem Node.value_mk (v : Option Nat) (cs : List (Ident × Node)) :
    (Node.mk v cs).value = v := rfl

theorem Node.children_mk (v : Option Nat) (cs : List (Ident × Node)) :
    (Node.mk v cs).children = cs := rfl

theorem Node.valueAtExact_empty (p : List Ident) :
    (Node.mk none []).valueAtExact p = none := by
  cases p <;> simp [Node.valueAtExact, Node.value_mk, Node.children_mk, alookup]

theorem Node.get_or_insert_target_value_node (p : List Ident) :
    ∀ n : Node, ((n.get_or_insert p).2).value = n.valueAtExact p := by
  induction p with
  | nil => intro n; rfl
  | cons k rest ih =>
    intro n
    obtain ⟨v, cs⟩ := n
    simp only [Node.get_or_insert, Node.valueAtExact, Node.children_mk, Node.value_mk]
    cases hl : alookup cs k with
    | some child => simpa using ih child
    | none =>
      simp only [Option.bind]
      rw [ih (Node.mk none []), Node.valueAtExact_empty]

theorem Node.get_or_insert_preserves_node (p : List Ident) :
    ∀ (n : Node) (q : List Ident),
      ((n.get_or_insert p).1).valueAtExact q = n.valueAtExact q := by
  induction p with
  | nil => intro n q; rfl
  | cons k rest ih =>
    intro n q
    obtain ⟨v, cs⟩ := n
    simp only [Node.get_or_insert, Node.children_mk, Node.value_mk]
    cases hl : alookup cs k with
    | some child =>
      simp only []
      cases q with
      | nil => rfl
      | cons k' q' =>
        simp only [Node.valueAtExact, Node.children_mk]
        by_cases hk : k' = k
        · subst hk
          rw [alookup_areplace_self k' _ _ _ hl, hl]
          simp [ih child q']
        · rw [alookup_areplace_other _ _ _ _ hk]
    | none =>
      simp only []
      cases q with
      | nil => rfl
      | cons k' q' =>
        simp only [Node.valueAtExact, Node.children_mk]
        by_cases hk : k' = k
        · subst hk
          rw [alookup_append_right _ _ _ hl, hl]
          simp only [alookup, if_pos rfl]
          simp [ih (Node.mk none []) q', Node.valueAtExact_empty]
        · have hk2 : ¬ k = k' := fun h => hk h.symm
          cases hl' : alookup cs k' with
          | some c => simp [alookup_append_left _ _ _ _ hl', hl']
          | none => simp [alookup_append_right _ _ _ hl', hl', alookup, hk2]

theorem Node.get_or_insert_reaches_node (p : List Ident) :
    ∀ n : Node, ((n.get_or_insert p).1).nodeAtExact p = some (n.get_or_insert p).2 := by
  induction p with
  | nil => intro n; rfl
  | cons k rest ih =>
    intro n
    obtain ⟨v, cs⟩ := n
    simp only [Node.get_or_insert, Node.children_mk, Node.value_mk]
    cases hl : alookup cs k with
    | some child =>
      simp only [Node.nodeAtExact, Node.children_mk]
      rw [alookup_areplace_self k _ _ _ hl]
      simpa using ih child
    | none =>
      simp only [Node.nodeAtExact, Node.children_mk]
      rw [alookup_append_right _ _ _ hl]
      simp only [alookup, if_pos rfl]
      simpa using ih (Node.mk none [])

theorem Node.setValueAt_hits_node (p : List Ident) :
    ∀ (n m : Node) (idx : Nat), n.nodeAtExact p = some m →
      (n.setValueAt p idx).valueAtExact p = some idx := by
  induction p with
  | nil => intro n m idx _; rfl
  | cons k rest ih =>
    intro n m idx h
    obtain ⟨v, cs⟩ := n
    simp only [Node.nodeAtExact, Node.children_mk] at h
    cases hl : alookup cs k with
    | some c =>
      rw [hl] at h
      simp only [Option.bind] at h
      simp only [Node.setValueAt, Node.children_mk, Node.value_mk, hl, Node.valueAtExact]
      rw [alookup_areplace_self k _ _ _ hl]
      simpa using ih c m idx h
    | none =>
      rw [hl] at h
      simp at h

theorem Node.setValueAt_other_node (p : List Ident) :
    ∀ (n : Node) (q : List Ident) (idx : Nat), q ≠ p →
      (n.setValueAt p idx).valueAtExact q = n.valueAtExact q := by
  induction p with
  | nil =>
    intro n q idx hq
    obtain ⟨v, cs⟩ := n
    cases q with
    | nil => exact absurd rfl hq
    | cons k' q' => simp [Node.setValueAt, Node.valueAtExact, Node.children_mk]
  | cons k rest ih =>
    intro n q idx hq
    obtain ⟨v, cs⟩ := n
    simp only [Node.setValueAt, Node.children_mk, Node.value_mk]
    cases hl : alookup cs k with
    | some c =>
      cases q with
      | nil => rfl
      | cons k' q' =>
        simp only [Node.valueAtExact, Node.children_mk]
        by_cases hk : k' = k
        · subst hk
          rw [alookup_areplace_self k' _ _ _ hl, hl]
          have hq' : q' ≠ rest := fun h => hq (by rw [h])
          simpa using ih c q' idx hq'
        · rw [alookup_areplace_other _ _ _ _ hk]
    | none => rfl

theorem Tree.get_or_insert_target_value (tree : Tree) (p : List Ident) (tree' : Tree)
    (node : Node) (h : Tree.get_or_insert tree p = some (tree', node)) :
    node.value = Tree.valueAtExact tree p := by
  cases p with
  | nil => simp [Tree.get_or_insert] at h
  | cons k rest =>
    simp only [Tree.get_or_insert] at h
    cases hl : alookup tree k with
    | some child =>
      rw [hl] at h
      simp only [Option.some.injEq, Prod.mk.injEq] at h
      obtain ⟨_, hn⟩ := h
      subst hn
      simp only [Tree.valueAtExact, hl, Option.bind]
      exact Node.get_or_insert_target_value_node rest child
    | none =>
      rw [hl] at h
      simp only [Option.some.injEq, Prod.mk.injEq] at h
      obtain ⟨_, hn⟩ := h
      subst hn
      simp only [Tree.valueAtExact, hl]
      rw [Node.get_or_insert_target_value_node rest (Node.mk none [])]
      cases rest <;> simp [Node.valueAtExact, Node.value, Node.children, alookup]

theorem Tree.get_or_insert_preserves (tree : Tree) (p : List Ident) (tree' : Tree)
    (node : Node) (h : Tree.get_or_insert tree p = some (tree', node)) (q : List Ident) :
    Tree.valueAtExact tree' q = Tree.valueAtExact tree q := by
  cases p with
  | nil => simp [Tree.get_or_insert] at h
  | cons k rest =>
    simp only [Tree.get_or_insert] at h
    cases hl : alookup tree k with
    | some child =>
      rw [hl] at h
      simp only [Option.some.injEq, Prod.mk.injEq] at h
      obtain ⟨ht, _⟩ := h
      subst ht
      cases q with
      | nil => rfl
      | cons k' q' =>
        simp only [Tree.valueAtExact]
        by_cases hk : k' = k
        · subst hk
          rw [alookup_areplace_self k' _ _ _ hl, hl]
          simp [Node.get_or_insert_preserves_node]
        · rw [alookup_areplace_other _ _ _ _ hk]
    | none =>
      rw [hl] at h
      simp only [Option.some.injEq, Prod.mk.injEq] at h
      obtain ⟨ht, _⟩ := h
      subst ht
      cases q with
      | nil => rfl
      | cons k' q' =>
        simp only [Tree.valueAtExact]
        by_cases hk : k' = k
        · subst hk
          rw [alookup_append_right _ _ _ hl, hl]
          simp only [alookup, if_pos rfl, Option.bind]
          simp [Node.get_or_insert_preserves_node, Node.valueAtExact_empty]
        · have hk2 : ¬ k = k' := fun h => hk h.symm
          cases hl' : alookup tree k' with
          | some c => simp [alookup_append_left _ _ _ _ hl', hl']
          | none => simp [alookup_append_right _ _ _ hl', hl', alookup, hk2]

theorem Tree.get_or_insert_reaches (tree : Tree) (p : List Ident) (tree' : Tree)
    (node : Node) (h : Tree.get_or_insert tree p = some (tree', node)) :
    Tree.nodeAtExact tree' p = some node := by
  cases p with
  | nil => simp [Tree.get_or_insert] at h
  | cons k rest =>
    simp only [Tree.get_or_insert] at h
    cases hl : alookup tree k with
    | some child =>
      rw [hl] at h
      simp only [Option.some.injEq, Prod.mk.injEq] at h
      obtain ⟨ht, hn⟩ := h
      subst ht; subst hn
      simp only [Tree.nodeAtExact]
      rw [alookup_areplace_self k _ _ _ hl]
      simpa using Node.get_or_insert_reaches_node rest child
    | none =>
      rw [hl] at h
      simp only [Option.some.injEq, Prod.mk.injEq] at h
      obtain ⟨ht, hn⟩ := h
      subst ht; subst hn
      simp only [Tree.nodeAtExact]
      rw [alookup_append_right _ _ _ hl]
      simp only [alookup, if_pos rfl, Option.bind]
      simpa using Node.get_or_insert_reaches_node rest (Node.mk none [])

theorem Tree.setValueAt_hits (tree : Tree) (p : List Ident) (m : Node) (idx : Nat)
    (h : Tree.nodeAtExact tree p = some m) :
    Tree.valueAtExact (Tree.setValueAt tree p idx) p = some idx := by
  cases p with
  | nil => simp [Tree.nodeAtExact] at h
  | cons k rest =>
    simp only [Tree.nodeAtExact] at h
    cases hl : alookup tree k with
    | some c =>
      rw [hl] at h
      simp only [Option.bind] at h
      simp only [Tree.setValueAt, hl, Tree.valueAtExact]
      rw [alookup_areplace_self k _ _ _ hl]
      simpa using Node.setValueAt_hits_node rest c m idx h
    | none =>
      rw [hl] at h
      simp at h

theorem Tree.setValueAt_other (tree : Tree) (p q : List Ident) (idx : Nat) (hq : q ≠ p) :
    Tree.valueAtExact (Tree.setValueAt tree p idx) q = Tree.valueAtExact tree q := by
  cases p with
  | nil => rfl
  | cons k rest =>
    simp only [Tree.setValueAt]
    cases hl : alookup tree k with
    | some c =>
      cases q with
      | nil => rfl
      | cons k' q' =>
        simp only [Tree.valueAtExact]
        by_cases hk : k' = k
        · subst hk
          rw [alookup_areplace_self k' _ _ _ hl, hl]
          have hq' : q' ≠ rest := fun h => hq (h ▸ rfl)
          simpa using Node.setValueAt_other_node rest c q' idx hq'
        · rw [alookup_areplace_other _ _ _ _ hk]
    | none => rfl

/-! ## The builder invariant: table and tree mutually consistent -/

/-- The table/tree consistency invariant: a path carries value `i`
exactly when the table's `i`-th addressable has that path. -/
def TableTreeInv (d : CcoDocument) : Prop :=
  ∀ p i, Tree.valueAtExact d.tree p = some i ↔
    ∃ a, d.addressables[i]? = some a ∧ a.path = p

/-- Every table entry's subst has the synthesized
`cco__<kind-tag>_<path-joined-by-double-underscore>` form. -/
def SubstFormed (d : CcoDocument) : Prop :=
  ∀ a ∈ d.addressables,
    a.subst = "cco__" ++ a.kind.tag ++ "_" ++ String.intercalate "__" a.path

/-- The conjunction of the builder invariants preserved by `insert`. -/
def DocInv (d : CcoDocument) : Prop := TableTreeInv d ∧ SubstFormed d

theorem insert_characterization (d : CcoDocument) (kind : Kind) (path : List Ident)
    (e : Expr) (d' : CcoDocument) (r : Option Nat)
    (h : d.insert kind path e = some (d', r)) :
    (r = none → d'.addressables = d.addressables ++ [Addressable.new path kind e] ∧
       Tree.valueAtExact d.tree path = none ∧
       (∀ q, q ≠ path → Tree.valueAtExact d'.tree q = Tree.valueAtExact d.tree q) ∧
       Tree.valueAtExact d'.tree path = some d.addressables.length) ∧
    (∀ x, r = some x → d'.addressables = d.addressables ∧
       ∀ q, Tree.valueAtExact d'.tree q = Tree.valueAtExact d.tree q) := by
  simp only [CcoDocument.insert] at h
  cases hg : Tree.get_or_insert d.tree path with
  | none => rw [hg] at h; exact absurd h (by simp)
  | some pr =>
    obtain ⟨tree', node⟩ := pr
    rw [hg] at h
    dsimp only at h
    cases hv : node.value with
    | some existing =>
      rw [hv] at h
      simp only [Option.some.injEq, Prod.mk.injEq] at h
      obtain ⟨hd, hr⟩ := h
      subst hd
      constructor
      · intro hrn; rw [hrn] at hr; exact absurd hr.symm (by simp)
      · intro x _
        refine ⟨rfl, fun q => ?_⟩
        exact Tree.get_or_insert_preserves d.tree path tree' node hg q
    | none =>
      rw [hv] at h
      simp only [Option.some.injEq, Prod.mk.injEq] at h
      obtain ⟨hd, hr⟩ := h
      subst hd
      constructor
      · intro _
        have hold : Tree.valueAtExact d.tree path = none := by
          rw [← Tree.get_or_insert_target_value d.tree path tree' node hg, hv]
        refine ⟨rfl, hold, ?_, ?_⟩
        · intro q hq
          rw [Tree.setValueAt_other tree' path q _ hq]
          exact Tree.get_or_insert_preserves d.tree path tree' node hg q
        · exact Tree.setValueAt_hits tree' path node _
            (Tree.get_or_insert_reaches d.tree path tree' node hg)
      · intro x hx; rw [hx] at hr; exact absurd hr (by simp)

theorem insert_DocInv (d : CcoDocument) (kind : Kind) (path : List Ident) (e : Expr)
    (d' : CcoDocument) (r : Option Nat) (hInv : DocInv d)
    (h : d.insert kind path e = some (d', r)) : DocInv d' := by
  obtain ⟨hTT, hSF⟩ := hInv
  obtain ⟨hnew, hold⟩ := insert_characterization d kind path e d' r h
  cases r with
  | some x =>
    obtain ⟨haddr, htree⟩ := hold x rfl
    constructor
    · intro p i
      rw [htree p, haddr]
      exact hTT p i
    · intro a ha
      rw [haddr] at ha
      exact hSF a ha
  | none =>
    obtain ⟨haddr, holdv, hother, hat⟩ := hnew rfl
    constructor
    · intro p i
      by_cases hp : p = path
      · subst hp
        rw [hat]
        constructor
        · intro hi
          obtain rfl : d.addressables.length = i := by simpa using hi
          refine ⟨Addressable.new p kind e, ?_, rfl⟩
          rw [haddr]
          rw [List.getElem?_append_right (le_refl _)]
          simp
        · rintro ⟨a, hai, hap⟩
          rw [haddr, List.getElem?_append] at hai
          split at hai
          · exfalso
            have : Tree.valueAtExact d.tree p = some i := (hTT p i).mpr ⟨a, hai, hap⟩
            rw [holdv] at this
            exact absurd this (by simp)
          · have hle : d.addressables.length ≤ i := Nat.le_of_not_lt (by assumption)
            have hi0 : i - d.addressables.length = 0 := by
              by_contra hne
              rw [List.getElem?_eq_none] at hai
              · exact absurd hai (by simp)
              · simpa using Nat.one_le_iff_ne_zero.mpr hne
            have : i = d.addressables.length := by omega
            rw [this]
      · rw [hother p hp, haddr]
        constructor
        · intro hi
          obtain ⟨a, hai, hap⟩ := (hTT p i).mp hi
          refine ⟨a, ?_, hap⟩
          rw [List.getElem?_append]
          split
          · exact hai
          · exfalso
            have : i < d.addressables.length := by
              by_contra hge
              rw [List.getElem?_eq_none (Nat.le_of_not_lt hge)] at hai
              exact absurd hai (by simp)
            omega
        · rintro ⟨a, hai, hap⟩
          rw [List.getElem?_append] at hai
          split at hai
          · exact (hTT p i).mpr ⟨a, hai, hap⟩
          · exfalso
            have hle : d.addressables.length ≤ i := Nat.le_of_not_lt (by assumption)
            have hi0 : i - d.addressables.length = 0 := by
              by_contra hne
              rw [List.getElem?_eq_none] at hai
              · exact absurd hai (by simp)
              · simpa using Nat.one_le_iff_ne_zero.mpr hne
            have h2 : Addressable.new path kind e = a := by
              rw [hi0] at hai
              simpa using hai
            rw [← h2] at hap
            exact hp hap.symm
    · intro a ha
      rw [haddr] at ha
      rw [List.mem_append] at ha
      cases ha with
      | inl hmem => exact hSF a hmem
      | inr hmem =>
        have : a = Addressable.new path kind e := by simpa using hmem
        subst this
        rfl

theorem emptyDoc_DocInv : DocInv emptyDoc := by
  constructor
  · intro p i
    constructor
    · intro h
      exfalso
      cases p with
      | nil => simp [Tree.valueAtExact, emptyDoc] at h
      | cons k rest => simp [Tree.valueAtExact, emptyDoc, alookup] at h
    · rintro ⟨a, hai, _⟩
      simp [emptyDoc] at hai
  · intro a ha
    simp [emptyDoc] at ha

theorem insertAsserted_DocInv (d : CcoDocument) (kind : Kind) (path : List Ident)
    (e : Expr) (d' : CcoDocument) (hInv : DocInv d)
    (h : insertAsserted d kind path e = some d') : DocInv d' := by
  simp only [insertAsserted] at h
  cases hi : d.insert kind path e with
  | none => rw [hi] at h; exact absurd h (by simp)
  | some pr =>
    obtain ⟨d1, r⟩ := pr
    rw [hi] at h
    cases r with
    | some x => exact absurd h (by simp)
    | none =>
      have hres := insert_DocInv d kind path e d1 none hInv hi
      obtain rfl : d1 = d' := by simpa using h
      exact hres

theorem insertIgnored_DocInv (d : CcoDocument) (kind : Kind) (path : List Ident)
    (e : Expr) (d' : CcoDocument) (hInv : DocInv d)
    (h : insertIgnored d kind path e = some d') : DocInv d' := by
  simp only [insertIgnored] at h
  cases hi : d.insert kind path e with
  | none => rw [hi] at h; exact absurd h (by simp)
  | some pr =>
    obtain ⟨d1, r⟩ := pr
    rw [hi] at h
    have hres := insert_DocInv d kind path e d1 r hInv hi
    obtain rfl : d1 = d' := by simpa using h
    exact hres

theorem processDirectAttrs_DocInv (ids : List Ident) :
    ∀ (attrs : List (Ident × Expr)) (d d' : CcoDocument), DocInv d →
      processDirectAttrs d ids attrs = some d' → DocInv d' := by
  intro attrs
  induction attrs with
  | nil =>
    intro d d' hInv h
    obtain rfl : d = d' := Option.some.inj h
    exact hInv
  | cons hd tl ih =>
    intro d d' hInv h
    obtain ⟨key, value⟩ := hd
    simp only [processDirectAttrs] at h
    cases ha : insertAsserted d .attribute (ids ++ [sanitize key]) value with
    | none => rw [ha] at h; exact absurd h (by simp)
    | some d1 =>
      rw [ha] at h
      simp only [Option.bind_eq_bind, Option.some_bind] at h
      exact ih d1 d' (insertAsserted_DocInv d _ _ _ d1 hInv ha) h

theorem processDefaultAttrs_DocInv (ids : List Ident) :
    ∀ (attrs : List (Ident × Expr)) (d d' : CcoDocument), DocInv d →
      processDefaultAttrs d ids attrs = some d' → DocInv d' := by
  intro attrs
  induction attrs with
  | nil =>
    intro d d' hInv h
    obtain rfl : d = d' := Option.some.inj h
    exact hInv
  | cons hd tl ih =>
    intro d d' hInv h
    obtain ⟨key, value⟩ := hd
    simp only [processDefaultAttrs] at h
    cases ha : insertIgnored d .defaultAttribute (ids ++ [sanitize key]) value with
    | none => rw [ha] at h; exact absurd h (by simp)
    | some d1 =>
      rw [ha] at h
      simp only [Option.bind_eq_bind, Option.some_bind] at h
      exact ih d1 d' (insertIgnored_DocInv d _ _ _ d1 hInv ha) h

theorem treeSwap_DocInv (d : CcoDocument) (tree' : Tree)
    (hpres : ∀ q, Tree.valueAtExact tree' q = Tree.valueAtExact d.tree q)
    (hInv : DocInv d) : DocInv { d with tree := tree' } := by
  obtain ⟨hTT, hSF⟩ := hInv
  exact ⟨fun p i => (hpres p) ▸ hTT p i, hSF⟩

theorem processBlockDefaults_DocInv (store : HclDocuments) (typeSpecs : List (Ident × Nat))
    (d1 d2 : CcoDocument) (db : DataBlock) (hInv : DocInv d1)
    (h : processBlockDefaults store typeSpecs d1 db = some d2) : DocInv d2 := by
  simp only [processBlockDefaults] at h
  cases hl : alookup typeSpecs (db.identifiers.headD "") with
  | some typeIdx =>
    rw [hl] at h
    exact processDefaultAttrs_DocInv _ _ d1 d2 hInv h
  | none =>
    rw [hl] at h
    obtain rfl : d1 = d2 := Option.some.inj h
    exact hInv

theorem processBlockRollup_DocInv (d2 d' : CcoDocument) (db : DataBlock)
    (hInv : DocInv d2) (h : processBlockRollup d2 db = some d') : DocInv d' := by
  simp only [processBlockRollup] at h
  cases hg : Tree.get_or_insert d2.tree db.identifiers with
  | none => rw [hg] at h; exact absurd h (by simp)
  | some pr =>
    obtain ⟨tree', node⟩ := pr
    rw [hg] at h
    dsimp only at h
    have hInv3 : DocInv { d2 with tree := tree' } :=
      treeSwap_DocInv d2 tree'
        (fun q => Tree.get_or_insert_preserves d2.tree db.identifiers tree' node hg q)
        hInv
    exact insertAsserted_DocInv _ _ _ _ d' hInv3 h

theorem processBlock_DocInv (store : HclDocuments) (typeSpecs : List (Ident × Nat))
    (d d' : CcoDocument) (db : DataBlock) (hInv : DocInv d)
    (h : processBlock store typeSpecs d db = some d') : DocInv d' := by
  simp only [processBlock] at h
  cases h1 : processDirectAttrs d db.identifiers
      (store.rootBlocks.getD db.blockIndex default).attributes with
  | none => rw [h1] at h; exact absurd h (by simp)
  | some d1 =>
    rw [h1] at h
    simp only [Option.bind_eq_bind, Option.some_bind] at h
    have hInv1 : DocInv d1 := processDirectAttrs_DocInv _ _ d d1 hInv h1
    cases h2 : processBlockDefaults store typeSpecs d1 db with
    | none => rw [h2] at h; exact absurd h (by simp)
    | some d2 =>
      rw [h2] at h
      simp only [Option.bind_eq_bind, Option.some_bind] at h
      exact processBlockRollup_DocInv d2 d' db
        (processBlockDefaults_DocInv store typeSpecs d1 d2 db hInv1 h2) h

theorem foldBlocks_DocInv (store : HclDocuments) (typeSpecs : List (Ident × Nat)) :
    ∀ (blocks : List DataBlock) (d d' : CcoDocument), DocInv d →
      List.foldlM (processBlock store typeSpecs) d blocks = some d' → DocInv d' := by
  intro blocks
  induction blocks with
  | nil =>
    intro d d' hInv h
    obtain rfl : d = d' := Option.some.inj h
    exact hInv
  | cons b bs ih =>
    intro d d' hInv h
    rw [List.foldlM_cons] at h
    cases hb : processBlock store typeSpecs d b with
    | none => rw [hb] at h; exact absurd h (by simp)
    | some d1 =>
      rw [hb] at h
      simp only [Option.bind_eq_bind, Option.some_bind] at h
      exact ih d1 d' (processBlock_DocInv store typeSpecs d d1 b hInv hb) h

theorem virtualRollups_DocInv (d : CcoDocument) (hInv : DocInv d) :
    DocInv (virtualRollups d) := by
  simp only [virtualRollups]
  generalize (d.tree.filterMap (fun kn =>
      match kn.2.value with
      | some _ => none
      | none => some (kn.1, rollupObject d kn.2)) : List (Ident × Expr)) = groups
  induction groups generalizing d with
  | nil => exact hInv
  | cons g gs ih =>
    simp only [List.foldl_cons]
    cases hi : d.insert .virtual [g.1] g.2 with
    | none => exact ih d hInv
    | some pr =>
      obtain ⟨d1, r⟩ := pr
      exact ih d1 (insert_DocInv d .virtual [g.1] g.2 d1 r hInv hi)

theorem new_DocInv (store : HclDocuments) (order : List Ident) (d : CcoDocument)
    (h : CcoDocument.new store order = .built d) : DocInv d := by
  simp only [CcoDocument.new] at h
  split at h
  · cases hf : List.foldlM (processBlock store (phase1 store).typeSpecs) emptyDoc
        (order.flatMap (fun k => (alookup (phase1 store).dataGroups k).getD [])) with
    | none => rw [hf] at h; exact absurd h (by simp)
    | some d0 =>
      rw [hf] at h
      obtain rfl : virtualRollups d0 = d := by
        cases h
        rfl
      exact virtualRollups_DocInv d0 (foldBlocks_DocInv store _ _ emptyDoc d0 emptyDoc_DocInv hf)
  · exact absurd h (by simp)

/-! ## Lemmas: substitution identifier strings -/

theorem append_cancel_left_str (p j1 j2 : String) (h : p ++ j1 = p ++ j2) : j1 = j2 := by
  have hd : p.data ++ j1.data = p.data ++ j2.data := by
    have := congrArg String.data h
    simpa [String.data_append] using this
  have h2 := List.append_cancel_left hd
  cases j1; cases j2; exact congrArg String.mk h2

theorem append_ne_at5 (p q j1 j2 : String) (hp : 5 < p.data.length)
    (hq : 5 < q.data.length) (h5 : p.data[5]? ≠ q.data[5]?) : p ++ j1 ≠ q ++ j2 := by
  intro h
  have hd := congrArg String.data h
  rw [String.data_append, String.data_append] at hd
  have h5' := congrArg (fun l => l[5]?) hd
  simp only [] at h5'
  rw [List.getElem?_append, List.getElem?_append] at h5'
  rw [if_pos hp, if_pos hq] at h5'
  exact h5 h5'

/-- The character at index 5 of a synthesized subst is the kind tag's
first character (`a`/`d`/`b`/`v`, pairwise distinct), so equal substs
force equal double-underscore path joins. -/
theorem subst_join_inj (k1 k2 : Kind) (j1 j2 : String)
    (h : "cco__" ++ k1.tag ++ "_" ++ j1 = "cco__" ++ k2.tag ++ "_" ++ j2) : j1 = j2 := by
  cases k1 <;> cases k2 <;> simp only [Kind.tag] at h
  all_goals first
    | exact append_cancel_left_str _ _ _ h
    | exact absurd h (append_ne_at5 _ _ _ _ (by decide) (by decide) (by decide))

/-! ## Lemmas: `find?` returns the lowest matching index -/

theorem find?_at_least_index {α : Type} (p : α → Bool) :
    ∀ (l : List α) (i : Nat) (a : α), l[i]? = some a → p a = true →
      (∀ j b, j < i → l[j]? = some b → p b = false) → l.find? p = some a := by
  intro l
  induction l with
  | nil => intro i a hi _ _; simp at hi
  | cons hd tl ih =>
    intro i a hi hp hleast
    cases i with
    | zero =>
      have : hd = a := by simpa using hi
      subst this
      simp [List.find?, hp]
    | succ i' =>
      have hhd : p hd = false := hleast 0 hd (Nat.succ_pos i') (by simp)
      rw [List.find?_cons_of_neg _ (by simp [hhd])]
      refine ih i' a (by simpa using hi) hp ?_
      intro j b hj hb
      exact hleast (j + 1) b (Nat.succ_lt_succ hj) (by simpa using hb)

theorem find?_eq_none_of_all {α : Type} (p : α → Bool) (l : List α)
    (h : ∀ a ∈ l, p a = false) : l.find? p = none := by
  rw [List.find?_eq_none]
  intro x hx
  simp [h x hx]

/-! ## Lemmas: the modelled expression evaluator -/

theorem exprMutualInd (P : Expr → Prop) (Q : ExprList → Prop) (R : ObjList → Prop)
    (h1 : P .null) (h2 : ∀ b, P (.bool b)) (h3 : ∀ n, P (.num n)) (h4 : ∀ s, P (.str s))
    (h5 : ∀ v, P (.var v)) (h6 : ∀ es, Q es → P (.arr es))
    (h7 : ∀ kvs, R kvs → P (.obj kvs)) (h8 : ∀ r ops, P r → P (.trav r ops))
    (h9 : Q .nil) (h10 : ∀ hd tl, P hd → Q tl → Q (.cons hd tl))
    (h11 : R .nil) (h12 : ∀ k v tl, P v → R tl → R (.cons k v tl)) :
    (∀ e, P e) ∧ (∀ es, Q es) ∧ (∀ kvs, R kvs) :=
  ⟨fun e => @Expr.rec P Q R h1 h2 h3 h4 h5 h6 h7 h8 h9 h10 h11 h12 e,
   fun es => @ExprList.rec P Q R h1 h2 h3 h4 h5 h6 h7 h8 h9 h10 h11 h12 es,
   fun kvs => @ObjList.rec P Q R h1 h2 h3 h4 h5 h6 h7 h8 h9 h10 h11 h12 kvs⟩

theorem alookup_some_mem {α : Type} :
    ∀ (l : List (Ident × α)) (k : Ident) (x : α), alookup l k = some x → (k, x) ∈ l := by
  intro l
  induction l with
  | nil => intro k x h; simp [alookup] at h
  | cons hd tl ih =>
    intro k x h
    obtain ⟨k', v⟩ := hd
    by_cases hk : k' = k
    · subst hk
      simp only [alookup, if_pos rfl] at h
      obtain rfl : v = x := by simpa using h
      exact List.mem_cons_self _ _
    · simp only [alookup, if_neg hk] at h
      exact List.mem_cons_of_mem _ (ih k x h)

theorem alookup_none_not_mem {α : Type} :
    ∀ (l : List (Ident × α)) (k : Ident), alookup l k = none → k ∉ l.map Prod.fst := by
  intro l
  induction l with
  | nil => intro k _; simp
  | cons hd tl ih =>
    intro k h
    obtain ⟨k', v⟩ := hd
    by_cases hk : k' = k
    · simp [alookup, hk] at h
    · simp only [alookup, if_neg hk] at h
      simp only [List.map_cons, List.mem_cons]
      rintro (rfl | hmem)
      · exact hk rfl
      · exact ih k h hmem

theorem any_fst_beq_iff {α : Type} (l : List (Ident × α)) (v : Ident) :
    (l.any (fun f => f.1 == v)) = true ↔ v ∈ l.map Prod.fst := by
  induction l with
  | nil => simp
  | cons hd tl ih =>
    simp only [List.any_cons, Bool.or_eq_true, ih, List.map_cons, List.mem_cons, beq_iff_eq]
    constructor
    · rintro (h | h)
      · exact Or.inl h.symm
      · exact Or.inr h
    · rintro (h | h)
      · exact Or.inl h.symm
      · exact Or.inr h

theorem except_ok_bind {ε α β : Type} (a : α) (f : α → Except ε β) :
    (Except.ok a : Except ε α) >>= f = f a := rfl

theorem except_error_bind {ε α β : Type} (e : ε) (f : α → Except ε β) :
    (Except.error e : Except ε α) >>= f = Except.error e := rfl

theorem applyTOps_no_undefinedVar :
    ∀ (ops : List TOp) (e : Expr) (v : Ident),
      applyTOps e ops ≠ .error (.undefinedVar v) := by
  intro ops
  induction ops with
  | nil =>
    intro e v h
    exact absurd (show (Except.ok e : Except EvalErr Expr)
      = Except.error (EvalErr.undefinedVar v) from h) (by simp)
  | cons op rest ih =>
    intro ein v h
    cases op with
    | getAttr k =>
      cases ein with
      | obj kvs =>
        have h2 : (match kvs.lookup? k with
            | some w => applyTOps w rest
            | none => (Except.error .otherErr : Except EvalErr Expr)) =
            .error (.undefinedVar v) := h
        cases hl : kvs.lookup? k with
        | some w => rw [hl] at h2; exact ih w v h2
        | none => rw [hl] at h2; exact absurd h2 (by simp)
      | null => exact absurd (show (Except.error EvalErr.otherErr : Except EvalErr Expr)
          = .error (.undefinedVar v) from h) (by simp)
      | bool b => exact absurd (show (Except.error EvalErr.otherErr : Except EvalErr Expr)
          = .error (.undefinedVar v) from h) (by simp)
      | num n => exact absurd (show (Except.error EvalErr.otherErr : Except EvalErr Expr)
          = .error (.undefinedVar v) from h) (by simp)
      | str s => exact absurd (show (Except.error EvalErr.otherErr : Except EvalErr Expr)
          = .error (.undefinedVar v) from h) (by simp)
      | var w => exact absurd (show (Except.error EvalErr.otherErr : Except EvalErr Expr)
          = .error (.undefinedVar v) from h) (by simp)
      | arr es => exact absurd (show (Except.error EvalErr.otherErr : Except EvalErr Expr)
          = .error (.undefinedVar v) from h) (by simp)
      | trav r o => exact absurd (show (Except.error EvalErr.otherErr : Except EvalErr Expr)
          = .error (.undefinedVar v) from h) (by simp)
    | indexNum n =>
      cases ein with
      | arr es =>
        cases hn : numAsU64 n with
        | some i =>
          have heq : applyTOps (.arr es) (.indexNum n :: rest) =
              (match es.get? i with
               | some w => applyTOps w rest
               | none => (Except.error .otherErr : Except EvalErr Expr)) := by
            simp only [applyTOps, hn]
          rw [heq] at h
          cases hg : es.get? i with
          | some w => rw [hg] at h; exact ih w v h
          | none => rw [hg] at h; exact absurd h (by simp)
        | none =>
          have heq : applyTOps (.arr es) (.indexNum n :: rest) =
              (Except.error .otherErr : Except EvalErr Expr) := by
            simp only [applyTOps, hn]
          rw [heq] at h
          exact absurd h (by simp)
      | null => exact absurd (show (Except.error EvalErr.otherErr : Except EvalErr Expr)
          = .error (.undefinedVar v) from h) (by simp)
      | bool b => exact absurd (show (Except.error EvalErr.otherErr : Except EvalErr Expr)
          = .error (.undefinedVar v) from h) (by simp)
      | num m => exact absurd (show (Except.error EvalErr.otherErr : Except EvalErr Expr)
          = .error (.undefinedVar v) from h) (by simp)
      | str s => exact absurd (show (Except.error EvalErr.otherErr : Except EvalErr Expr)
          = .error (.undefinedVar v) from h) (by simp)
      | var w => exact absurd (show (Except.error EvalErr.otherErr : Except EvalErr Expr)
          = .error (.undefinedVar v) from h) (by simp)
      | obj kvs => exact absurd (show (Except.error EvalErr.otherErr : Except EvalErr Expr)
          = .error (.undefinedVar v) from h) (by simp)
      | trav r o => exact absurd (show (Except.error EvalErr.otherErr : Except EvalErr Expr)
          = .error (.undefinedVar v) from h) (by simp)
    | indexOther =>
      exact absurd (show (Except.error EvalErr.otherErr : Except EvalErr Expr)
          = .error (.undefinedVar v) from h) (by simp)

theorem evalExpr_undefinedVar_facts (ctx : Context) :
    (∀ e, ∀ v, evalExpr ctx e = .error (.undefinedVar v) →
       alookup ctx v = none ∧ v ∈ varsE e) ∧
    (∀ es, ∀ v, evalList ctx es = .error (.undefinedVar v) →
       alookup ctx v = none ∧ v ∈ varsL es) ∧
    (∀ kvs, ∀ v, evalObj ctx kvs = .error (.undefinedVar v) →
       alookup ctx v = none ∧ v ∈ varsO kvs) := by
  refine exprMutualInd _ _ _ ?_ ?_ ?_ ?_ ?_ ?_ ?_ ?_ ?_ ?_ ?_ ?_
  · intro v h; simp [evalExpr] at h
  · intro b v h; simp [evalExpr] at h
  · intro n v h; simp [evalExpr] at h
  · intro s v h; simp [evalExpr] at h
  · intro w v h
    simp only [evalExpr] at h
    cases hl : alookup ctx w with
    | some x => rw [hl] at h; simp at h
    | none =>
      rw [hl] at h
      obtain rfl : w = v := by simpa using h
      exact ⟨hl, by simp [varsE]⟩
  · intro es ih v h
    simp only [evalExpr] at h
    cases he : evalList ctx es with
    | ok rs => rw [he] at h; simp [Except.map] at h
    | error err =>
      rw [he] at h
      obtain rfl : err = .undefinedVar v := by simpa [Except.map] using h
      simpa [varsE] using ih v he
  · intro kvs ih v h
    simp only [evalExpr] at h
    cases he : evalObj ctx kvs with
    | ok rs => rw [he] at h; simp [Except.map] at h
    | error err =>
      rw [he] at h
      obtain rfl : err = .undefinedVar v := by simpa [Except.map] using h
      simpa [varsE] using ih v he
  · intro r ops ih v h
    simp only [evalExpr] at h
    cases hr : evalExpr ctx r with
    | ok r' =>
      rw [hr] at h
      rw [except_ok_bind] at h
      exact absurd h (applyTOps_no_undefinedVar ops r' v)
    | error err =>
      rw [hr] at h
      rw [except_error_bind] at h
      obtain rfl : err = .undefinedVar v := by simpa using h
      simpa [varsE] using ih v hr
  · intro v h; simp [evalList] at h
  · intro hd tl ihh iht v h
    simp only [evalList] at h
    cases he : evalExpr ctx hd with
    | ok r =>
      rw [he] at h
      rw [except_ok_bind] at h
      cases ht : evalList ctx tl with
      | ok rs => rw [ht] at h; rw [except_ok_bind] at h; simp at h
      | error err =>
        rw [ht] at h
        rw [except_error_bind] at h
        obtain rfl : err = .undefinedVar v := by simpa using h
        have := iht v ht
        exact ⟨this.1, by simp [varsL, this.2]⟩
    | error err =>
      rw [he] at h
      rw [except_error_bind] at h
      obtain rfl : err = .undefinedVar v := by simpa using h
      have := ihh v he
      exact ⟨this.1, by simp [varsL, this.2]⟩
  · intro v h; simp [evalObj] at h
  · intro k val tl ihh iht v h
    simp only [evalObj] at h
    cases he : evalExpr ctx val with
    | ok r =>
      rw [he] at h
      rw [except_ok_bind] at h
      cases ht : evalObj ctx tl with
      | ok rs => rw [ht] at h; rw [except_ok_bind] at h; simp at h
      | error err =>
        rw [ht] at h
        rw [except_error_bind] at h
        obtain rfl : err = .undefinedVar v := by simpa using h
        have := iht v ht
        exact ⟨this.1, by simp [varsO, this.2]⟩
    | error err =>
      rw [he] at h
      rw [except_error_bind] at h
      obtain rfl : err = .undefinedVar v := by simpa using h
      have := ihh v he
      exact ⟨this.1, by simp [varsO, this.2]⟩

theorem evalExpr_undefinedVar (ctx : Context) (e : Expr) (v : Ident)
    (h : evalExpr ctx e = .error (.undefinedVar v)) :
    alookup ctx v = none ∧ v ∈ varsE e :=
  (evalExpr_undefinedVar_facts ctx).1 e v h

theorem evalExpr_simple_no_otherErr (ctx : Context) :
    (∀ e, Simple e = true → evalExpr ctx e ≠ .error .otherErr) ∧
    (∀ es, SimpleL es = true → evalList ctx es ≠ .error .otherErr) ∧
    (∀ kvs, SimpleO kvs = true → evalObj ctx kvs ≠ .error .otherErr) := by
  refine exprMutualInd _ _ _ ?_ ?_ ?_ ?_ ?_ ?_ ?_ ?_ ?_ ?_ ?_ ?_
  · intro hs; simp [Simple] at hs
  · intro b _ h; simp [evalExpr] at h
  · intro n _ h; simp [evalExpr] at h
  · intro s _ h; simp [evalExpr] at h
  · intro w _ h
    simp only [evalExpr] at h
    cases hl : alookup ctx w with
    | some x => rw [hl] at h; simp at h
    | none => rw [hl] at h; simp at h
  · intro es ih hs h
    simp only [evalExpr] at h
    cases he : evalList ctx es with
    | ok rs => rw [he] at h; simp [Except.map] at h
    | error err =>
      rw [he] at h
      obtain rfl : err = .otherErr := by simpa [Except.map] using h
      exact ih (by simpa [Simple] using hs) he
  · intro kvs ih hs h
    simp only [evalExpr] at h
    cases he : evalObj ctx kvs with
    | ok rs => rw [he] at h; simp [Except.map] at h
    | error err =>
      rw [he] at h
      obtain rfl : err = .otherErr := by simpa [Except.map] using h
      exact ih (by simpa [Simple] using hs) he
  · intro r ops ih hs h
    simp only [Simple, Bool.and_eq_true, List.isEmpty_iff] at hs
    obtain ⟨rfl, hsr⟩ := hs
    simp only [evalExpr] at h
    cases he : evalExpr ctx r with
    | ok r' =>
      rw [he] at h
      rw [except_ok_bind] at h
      exact absurd h (by simp [applyTOps])
    | error err =>
      rw [he] at h
      rw [except_error_bind] at h
      obtain rfl : err = .otherErr := by simpa using h
      exact ih hsr he
  · intro _ h; simp [evalList] at h
  · intro hd tl ihh iht hs h
    simp only [SimpleL, Bool.and_eq_true] at hs
    simp only [evalList] at h
    cases he : evalExpr ctx hd with
    | ok r =>
      rw [he] at h
      rw [except_ok_bind] at h
      cases ht : evalList ctx tl with
      | ok rs => rw [ht] at h; rw [except_ok_bind] at h; simp at h
      | error err =>
        rw [ht] at h
        rw [except_error_bind] at h
        obtain rfl : err = .otherErr := by simpa using h
        exact iht hs.2 ht
    | error err =>
      rw [he] at h
      rw [except_error_bind] at h
      obtain rfl : err = .otherErr := by simpa using h
      exact ihh hs.1 he
  · intro _ h; simp only [evalObj] at h; exact Except.noConfusion h
  · intro k val tl ihh iht hs h
    simp only [SimpleO, Bool.and_eq_true] at hs
    simp only [evalObj] at h
    cases he : evalExpr ctx val with
    | ok r =>
      rw [he] at h
      rw [except_ok_bind] at h
      cases ht : evalObj ctx tl with
      | ok rs => rw [ht] at h; rw [except_ok_bind] at h; simp at h
      | error err =>
        rw [ht] at h
        rw [except_error_bind] at h
        obtain rfl : err = .otherErr := by simpa using h
        exact iht hs.2 ht
    | error err =>
      rw [he] at h
      rw [except_error_bind] at h
      obtain rfl : err = .otherErr := by simpa using h
      exact ihh hs.1 he

theorem evalExpr_ok_isValue (ctx : Context) (hctx : ∀ kv ∈ ctx, IsValue kv.2 = true) :
    (∀ e, Simple e = true → ∀ r, evalExpr ctx e = .ok r → IsValue r = true) ∧
    (∀ es, SimpleL es = true → ∀ rs, evalList ctx es = .ok rs → IsValueL rs = true) ∧
    (∀ kvs, SimpleO kvs = true → ∀ rs, evalObj ctx kvs = .ok rs → IsValueO rs = true) := by
  refine exprMutualInd _ _ _ ?_ ?_ ?_ ?_ ?_ ?_ ?_ ?_ ?_ ?_ ?_ ?_
  · intro hs; simp [Simple] at hs
  · intro b _ r h
    obtain rfl : Expr.bool b = r := by simpa [evalExpr] using h
    rfl
  · intro n _ r h
    obtain rfl : Expr.num n = r := by simpa [evalExpr] using h
    rfl
  · intro s _ r h
    obtain rfl : Expr.str s = r := by simpa [evalExpr] using h
    rfl
  · intro w _ r h
    simp only [evalExpr] at h
    cases hl : alookup ctx w with
    | some x =>
      rw [hl] at h
      have hxr : x = r := by simpa using h
      rw [← hxr]
      exact hctx (w, x) (alookup_some_mem ctx w x hl)
    | none => rw [hl] at h; simp at h
  · intro es ih hs r h
    simp only [evalExpr] at h
    cases he : evalList ctx es with
    | ok rs =>
      rw [he] at h
      obtain rfl : Expr.arr rs = r := by simpa [Except.map] using h
      simpa [IsValue] using ih (by simpa [Simple] using hs) rs he
    | error err => rw [he] at h; simp [Except.map] at h
  · intro kvs ih hs r h
    simp only [evalExpr] at h
    cases he : evalObj ctx kvs with
    | ok rs =>
      rw [he] at h
      obtain rfl : Expr.obj rs = r := by simpa [Except.map] using h
      simpa [IsValue] using ih (by simpa [Simple] using hs) rs he
    | error err => rw [he] at h; simp [Except.map] at h
  · intro r ops ih hs r' h
    simp only [Simple, Bool.and_eq_true, List.isEmpty_iff] at hs
    obtain ⟨rfl, hsr⟩ := hs
    simp only [evalExpr] at h
    cases he : evalExpr ctx r with
    | ok r0 =>
      rw [he] at h
      rw [except_ok_bind] at h
      have hr : r0 = r' := by simpa [applyTOps] using h
      rw [← hr]
      exact ih hsr r0 he
    | error err =>
      rw [he] at h
      rw [except_error_bind] at h
      simp at h
  · intro _ rs h
    obtain rfl : ExprList.nil = rs := by simpa [evalList] using h
    rfl
  · intro hd tl ihh iht hs rs h
    simp only [SimpleL, Bool.and_eq_true] at hs
    simp only [evalList] at h
    cases he : evalExpr ctx hd with
    | ok r =>
      rw [he] at h
      rw [except_ok_bind] at h
      cases ht : evalList ctx tl with
      | ok rs' =>
        rw [ht] at h
        rw [except_ok_bind] at h
        obtain rfl : ExprList.cons r rs' = rs := by simpa using h
        simp [IsValueL, ihh hs.1 r he, iht hs.2 rs' ht]
      | error err => rw [ht] at h; rw [except_error_bind] at h; simp at h
    | error err => rw [he] at h; rw [except_error_bind] at h; simp at h
  · intro _ rs h
    obtain rfl : ObjList.nil = rs := by simpa [evalObj] using h
    rfl
  · intro k val tl ihh iht hs rs h
    simp only [SimpleO, Bool.and_eq_true] at hs
    simp only [evalObj] at h
    cases he : evalExpr ctx val with
    | ok r =>
      rw [he] at h
      rw [except_ok_bind] at h
      cases ht : evalObj ctx tl with
      | ok rs' =>
        rw [ht] at h
        rw [except_ok_bind] at h
        obtain rfl : ObjList.cons k r rs' = rs := by simpa using h
        simp [IsValueO, ihh hs.1 r he, iht hs.2 rs' ht]
      | error err => rw [ht] at h; rw [except_error_bind] at h; simp at h
    | error err => rw [he] at h; rw [except_error_bind] at h; simp at h

theorem isValue_toValue_isSome :
    (∀ e, IsValue e = true → (toValue e).isSome = true) ∧
    (∀ es, IsValueL es = true → (toValueL es).isSome = true) ∧
    (∀ kvs, IsValueO kvs = true → (toValueO kvs).isSome = true) := by
  refine exprMutualInd _ _ _ ?_ ?_ ?_ ?_ ?_ ?_ ?_ ?_ ?_ ?_ ?_ ?_
  · intro hs; simp [IsValue] at hs
  · intro b _; simp [toValue]
  · intro n _; simp [toValue]
  · intro s _; simp [toValue]
  · intro w hs; simp [IsValue] at hs
  · intro es ih hs
    have := ih (by simpa [IsValue] using hs)
    simp only [toValue]
    cases he : toValueL es with
    | some vs => simp
    | none => rw [he] at this; simp at this
  · intro kvs ih hs
    have := ih (by simpa [IsValue] using hs)
    simp only [toValue]
    cases he : toValueO kvs with
    | some vs => simp
    | none => rw [he] at this; simp at this
  · intro r ops _ hs; simp [IsValue] at hs
  · intro _; simp [toValueL]
  · intro hd tl ihh iht hs
    simp only [IsValueL, Bool.and_eq_true] at hs
    have h1 := ihh hs.1
    have h2 := iht hs.2
    simp only [toValueL]
    cases he : toValue hd with
    | none => rw [he] at h1; simp at h1
    | some v =>
      cases ht : toValueL tl with
      | none => rw [ht] at h2; simp at h2
      | some vs => simp
  · intro _; simp [toValueO]
  · intro k val tl ihh iht hs
    simp only [IsValueO, Bool.and_eq_true] at hs
    have h1 := ihh hs.1
    have h2 := iht hs.2
    simp only [toValueO]
    cases he : toValue val with
    | none => rw [he] at h1; simp at h1
    | some v =>
      cases ht : toValueO tl with
      | none => rw [ht] at h2; simp at h2
      | some vs => simp

/-! ## Lemmas: the resolver loop, its measure and its fuel -/

theorem get_by_subst_some_facts (d : CcoDocument) (v : Ident) (a : Addressable)
    (h : d.get_by_subst v = some a) : a ∈ d.addressables ∧ a.subst = v := by
  simp only [CcoDocument.get_by_subst] at h
  exact ⟨List.mem_of_find?_eq_some h, by simpa using List.find?_some h⟩

theorem getRW_some_cases (d : CcoDocument) (v : Ident) (x : Option Expr)
    (h : d.get_by_subst_and_rewrite v = some x) :
    ∃ a, d.get_by_subst v = some a ∧ x = d.rewriteFor a := by
  simp only [CcoDocument.get_by_subst_and_rewrite] at h
  cases hg : d.get_by_subst v with
  | none => rw [hg] at h; simp at h
  | some a =>
    rw [hg] at h
    exact ⟨a, rfl, by simpa using h.symm⟩

theorem getRW_none (d : CcoDocument) (v : Ident)
    (h : d.get_by_subst_and_rewrite v = none) : d.get_by_subst v = none := by
  simp only [CcoDocument.get_by_subst_and_rewrite] at h
  cases hg : d.get_by_subst v with
  | none => rfl
  | some a => rw [hg] at h; simp at h

theorem countP_congr_list {α : Type} (p q : α → Bool) :
    ∀ l : List α, (∀ x ∈ l, p x = q x) → l.countP p = l.countP q := by
  intro l
  induction l with
  | nil => intro _; rfl
  | cons hd tl ih =>
    intro hag
    have hhd := hag hd (List.mem_cons_self _ _)
    have htl := ih (fun x hx => hag x (List.mem_cons_of_mem _ hx))
    cases hp : p hd with
    | true =>
      rw [List.countP_cons_of_pos _ _ hp, List.countP_cons_of_pos _ _ (hhd ▸ hp), htl]
    | false =>
      rw [List.countP_cons_of_neg _ _ (by simp [hp]),
        List.countP_cons_of_neg _ _ (by simp [← hhd, hp]), htl]

theorem countP_flip {α : Type} (p q : α → Bool) :
    ∀ (l : List α), l.Nodup → ∀ v ∈ l, p v = true → q v = false →
      (∀ x ∈ l, x ≠ v → p x = q x) → l.countP p = l.countP q + 1 := by
  intro l
  induction l with
  | nil => intro _ v hv; simp at hv
  | cons hd tl ih =>
    intro hnd v hv hpv hqv hagree
    rw [List.nodup_cons] at hnd
    rcases List.mem_cons.mp hv with rfl | hvtl
    · rw [List.countP_cons_of_pos _ _ hpv, List.countP_cons_of_neg _ _ (by simp [hqv])]
      have : tl.countP p = tl.countP q := by
        refine countP_congr_list p q tl (fun x hx => ?_)
        exact hagree x (List.mem_cons_of_mem _ hx) (fun hxv => hnd.1 (hxv ▸ hx))
      omega
    · have hne : hd ≠ v := fun h => hnd.1 (h ▸ hvtl)
      have hpq : p hd = q hd := hagree hd (List.mem_cons_self _ _) hne
      have htl := ih hnd.2 v hvtl hpv hqv
        (fun x hx hxv => hagree x (List.mem_cons_of_mem _ hx) hxv)
      cases hp : p hd with
      | true =>
        rw [List.countP_cons_of_pos _ _ hp, List.countP_cons_of_pos _ _ (hpq ▸ hp), htl]
      | false =>
        rw [List.countP_cons_of_neg _ _ (by simp [hp]),
          List.countP_cons_of_neg _ _ (by simp [← hpq, hp]), htl]

theorem evalStep_next_cases (d : CcoDocument) (s s' : EvalState)
    (h : evalStep d s = .next s') :
    ∃ current e rest, s.stack = (current, e) :: rest ∧
      ((∃ e', evalExpr s.ctx e = .ok e' ∧ rest ≠ [] ∧
          s' = ⟨(current, e') :: s.ctx, rest⟩) ∨
       (∃ var expr, evalExpr s.ctx e = .error (.undefinedVar var) ∧
          strStartsWith var "cco__" = true ∧
          (((current, e) :: rest).any (fun f => f.1 == var)) = false ∧
          d.get_by_subst_and_rewrite var = some (some expr) ∧
          s' = ⟨s.ctx, (var, expr) :: (current, e) :: rest⟩)) := by
  simp only [evalStep] at h
  cases hst : s.stack with
  | nil => rw [hst] at h; simp at h
  | cons fr rest =>
    obtain ⟨current, e⟩ := fr
    rw [hst] at h
    dsimp only at h
    refine ⟨current, e, rest, rfl, ?_⟩
    cases hev : evalExpr s.ctx e with
    | ok e' =>
      rw [hev] at h
      dsimp only at h
      by_cases hre : rest.isEmpty
      · rw [if_pos hre] at h; simp at h
      · rw [if_neg hre] at h
        left
        refine ⟨e', rfl, by simpa [List.isEmpty_iff] using hre, ?_⟩
        have := h
        simp only [StepRes.next.injEq] at this
        exact this.symm
    | error err =>
      rw [hev] at h
      cases err with
      | otherErr => simp at h
      | undefinedVar var =>
        dsimp only at h
        by_cases hcc : strStartsWith var "cco__"
        · rw [if_pos hcc] at h
          by_cases hany : (((current, e) :: rest).any (fun f => f.1 == var)) = true
          · rw [if_pos hany] at h
            cases hg : d.get_by_subst var with
            | some a => rw [hg] at h; simp at h
            | none => rw [hg] at h; simp at h
          · rw [if_neg hany] at h
            cases hg : d.get_by_subst_and_rewrite var with
            | none => rw [hg] at h; simp at h
            | some o =>
              rw [hg] at h
              cases o with
              | none => simp at h
              | some expr =>
                right
                refine ⟨var, expr, rfl, hcc, Bool.eq_false_iff.mpr hany, hg, ?_⟩
                simp only [StepRes.next.injEq] at h
                exact h.symm
        · rw [if_neg hcc] at h; simp at h

theorem evalStep_done_cases (d : CcoDocument) (s : EvalState) (r : Except CcoError Expr)
    (h : evalStep d s = .done r) :
    (s.stack = [] ∧ r = .error .panicked) ∨
    (∃ current e rest, s.stack = (current, e) :: rest ∧
      ((∃ e', evalExpr s.ctx e = .ok e' ∧ rest = [] ∧ r = .ok e') ∨
       (evalExpr s.ctx e = .error .otherErr ∧ r = .error (.evalFailed .otherErr)) ∨
       (∃ var, evalExpr s.ctx e = .error (.undefinedVar var) ∧
          strStartsWith var "cco__" = false ∧
          r = .error (.evalFailed (.undefinedVar var))) ∨
       (∃ var, evalExpr s.ctx e = .error (.undefinedVar var) ∧
          strStartsWith var "cco__" = true ∧
          (((current, e) :: rest).any (fun f => f.1 == var)) = true ∧
          ((∃ a, d.get_by_subst var = some a ∧ r = .error (.loopAt a.path var)) ∨
           (d.get_by_subst var = none ∧ r = .error (.loopRaw var)))) ∨
       (∃ var, evalExpr s.ctx e = .error (.undefinedVar var) ∧
          strStartsWith var "cco__" = true ∧
          (((current, e) :: rest).any (fun f => f.1 == var)) = false ∧
          ((d.get_by_subst_and_rewrite var = none ∧ r = .error (.missingDependency var)) ∨
           (d.get_by_subst_and_rewrite var = some none ∧ r = .error .panicked))))) := by
  simp only [evalStep] at h
  cases hst : s.stack with
  | nil =>
    rw [hst] at h
    refine Or.inl ⟨rfl, ?_⟩
    simpa using h.symm
  | cons fr rest =>
    obtain ⟨current, e⟩ := fr
    rw [hst] at h
    dsimp only at h
    refine Or.inr ⟨current, e, rest, rfl, ?_⟩
    cases hev : evalExpr s.ctx e with
    | ok e' =>
      rw [hev] at h
      dsimp only at h
      by_cases hre : rest.isEmpty
      · rw [if_pos hre] at h
        refine Or.inl ⟨e', rfl, by simpa [List.isEmpty_iff] using hre, ?_⟩
        simpa using h.symm
      · rw [if_neg hre] at h; simp at h
    | error err =>
      rw [hev] at h
      cases err with
      | otherErr =>
        refine Or.inr (Or.inl ⟨rfl, ?_⟩)
        simpa using h.symm
      | undefinedVar var =>
        dsimp only at h
        by_cases hcc : strStartsWith var "cco__"
        · rw [if_pos hcc] at h
          by_cases hany : (((current, e) :: rest).any (fun f => f.1 == var)) = true
          · rw [if_pos hany] at h
            refine Or.inr (Or.inr (Or.inr (Or.inl ⟨var, rfl, hcc, hany, ?_⟩)))
            cases hg : d.get_by_subst var with
            | some a =>
              rw [hg] at h
              exact Or.inl ⟨a, rfl, by simpa using h.symm⟩
            | none =>
              rw [hg] at h
              exact Or.inr ⟨rfl, by simpa using h.symm⟩
          · rw [if_neg hany] at h
            refine Or.inr (Or.inr (Or.inr (Or.inr ⟨var, rfl, hcc, Bool.eq_false_iff.mpr hany, ?_⟩)))
            cases hg : d.get_by_subst_and_rewrite var with
            | none =>
              rw [hg] at h
              exact Or.inl ⟨rfl, by simpa using h.symm⟩
            | some o =>
              rw [hg] at h
              cases o with
              | none => exact Or.inr ⟨rfl, by simpa using h.symm⟩
              | some expr => simp at h
        · rw [if_neg hcc] at h
          refine Or.inr (Or.inr (Or.inl ⟨var, rfl, Bool.eq_false_iff.mpr hcc, ?_⟩))
          simpa using h.symm

theorem evalStep_next_measure (d : CcoDocument) (s s' : EvalState)
    (h : evalStep d s = .next s') : measureOf d s' < measureOf d s := by
  obtain ⟨current, e, rest, hst, hcase⟩ := evalStep_next_cases d s s' h
  cases hcase with
  | inl hbind =>
    obtain ⟨e', hev, hne, hs'⟩ := hbind
    have hcnt : (substList d).countP
        (fun x => (alookup s'.ctx x).isNone && !(s'.stack.any (fun f => f.1 == x))) =
        (substList d).countP
        (fun x => (alookup s.ctx x).isNone && !(s.stack.any (fun f => f.1 == x))) := by
      refine countP_congr_list _ _ _ (fun x _ => ?_)
      rw [hs', hst]
      by_cases hx : current = x
      · subst hx
        simp [alookup, List.any_cons]
      · have hbe : (current == x) = false := beq_eq_false_iff_ne.mpr hx
        simp [alookup, hx, List.any_cons, hbe, Bool.not_or]
    have hlen1 : s'.stack.length = rest.length := by rw [hs']
    have hlen2 : s.stack.length = rest.length + 1 := by rw [hst]; rfl
    simp only [measureOf]
    rw [hcnt, hlen1, hlen2]
    omega
  | inr hpush =>
    obtain ⟨var, expr, hev, hcc, hany, hrw, hs'⟩ := hpush
    have hlook : alookup s.ctx var = none := (evalExpr_undefinedVar s.ctx e var hev).1
    have hvmem : var ∈ substList d := by
      obtain ⟨a, hga, _⟩ := getRW_some_cases d var (some expr) hrw
      obtain ⟨hmem, hsub⟩ := get_by_subst_some_facts d var a hga
      have : var ∈ d.addressables.map (fun a => a.subst) :=
        List.mem_map.mpr ⟨a, hmem, hsub⟩
      simpa [substList, List.mem_dedup] using this
    have hflip : (substList d).countP
        (fun x => (alookup s.ctx x).isNone && !(s.stack.any (fun f => f.1 == x))) =
        (substList d).countP
        (fun x => (alookup s'.ctx x).isNone && !(s'.stack.any (fun f => f.1 == x))) + 1 := by
      refine countP_flip _ _ (substList d) (List.nodup_dedup _) var hvmem ?_ ?_ ?_
      · rw [hst]
        simp [hlook, hany]
      · rw [hs']
        simp [List.any_cons]
      · intro x _ hxv
        rw [hs', hst]
        have : (var == x) = false := by simpa using fun hh => hxv (by rw [hh])
        simp [List.any_cons, this, hst]
    have hlen : s'.stack.length = s.stack.length + 1 := by
      rw [hs', hst]
      simp
    simp only [measureOf]
    rw [hflip, hlen]
    omega

theorem evalLoop_some_of_measure (d : CcoDocument) :
    ∀ (fuel : Nat) (s : EvalState), measureOf d s < fuel →
      ∃ r, evalLoop d fuel s = some r := by
  intro fuel
  induction fuel with
  | zero => intro s hs; omega
  | succ n ih =>
    intro s hs
    simp only [evalLoop]
    cases hstep : evalStep d s with
    | done r => exact ⟨r, rfl⟩
    | next s' =>
      have := evalStep_next_measure d s s' hstep
      exact ih s' (by omega)

theorem evalStep_done_no_fuelErr (d : CcoDocument) (s : EvalState)
    (r : Except CcoError Expr) (h : evalStep d s = .done r) :
    r ≠ .error .fuelExhausted := by
  rcases evalStep_done_cases d s r h with ⟨_, rfl⟩ | ⟨c, e, rest, _, hc⟩
  · simp
  · rcases hc with ⟨e', _, _, rfl⟩ | ⟨_, rfl⟩ | ⟨v, _, _, rfl⟩ |
      ⟨v, _, _, _, ⟨a, _, rfl⟩ | ⟨_, rfl⟩⟩ | ⟨v, _, _, _, ⟨_, rfl⟩ | ⟨_, rfl⟩⟩ <;> simp

theorem evalLoop_no_fuelErr (d : CcoDocument) :
    ∀ (fuel : Nat) (s : EvalState) (r : Except CcoError Expr),
      evalLoop d fuel s = some r → r ≠ .error .fuelExhausted := by
  intro fuel
  induction fuel with
  | zero => intro s r h; simp [evalLoop] at h
  | succ n ih =>
    intro s r h
    simp only [evalLoop] at h
    cases hstep : evalStep d s with
    | done r' =>
      rw [hstep] at h
      have hdone := evalStep_done_no_fuelErr d s r' hstep
      obtain rfl : r' = r := by simpa using h
      exact hdone
    | next s' =>
      rw [hstep] at h
      exact ih s' r h

theorem measureOf_le (d : CcoDocument) (s : EvalState) :
    measureOf d s ≤ 2 * d.addressables.length + s.stack.length := by
  have h1 := List.countP_le_length
    (fun x => (alookup s.ctx x).isNone && !(s.stack.any (fun f => f.1 == x)))
    (l := substList d)
  have h2 : (substList d).length ≤ d.addressables.length := by
    have := (List.dedup_sublist (d.addressables.map (fun a => a.subst))).length_le
    simpa [substList] using this
  simp only [measureOf]
  omega

theorem initial_measure_lt (d : CcoDocument) (e' : Expr) :
    measureOf d ⟨[], [("output", e')]⟩ < evalFuel d := by
  have h := measureOf_le d ⟨[], [("output", e')]⟩
  have hs : (⟨[], [("output", e')]⟩ : EvalState).stack.length = 1 := rfl
  simp only [evalFuel]
  omega

/-! ## Lemmas: the cycle run -/

theorem evalPureRef (e : Expr) (v : Ident) (h : PureRef e v) :
    evalExpr [] e = .error (.undefinedVar v) := by
  cases h with
  | inl h => rw [h]; rfl
  | inr h => rw [h]; rfl

theorem output_not_cco : strStartsWith "output" "cco__" = false := by decide

theorem c2_run (d : CcoDocument) (ss : List Ident) (s0 : Ident) (a : Addressable)
    (hnd : ss.Nodup)
    (hcco : ∀ s ∈ ss, strStartsWith s "cco__" = true)
    (hs0 : s0 ∈ ss)
    (ha : d.get_by_subst s0 = some a)
    (hchain : ∀ (i : Nat) (v : Ident), ss[i]? = some v →
       ∃ e, d.get_by_subst_and_rewrite v = some (some e) ∧
         (ss[i + 1]? = none → PureRef e s0) ∧
         (∀ w, ss[i + 1]? = some w → PureRef e w)) :
    ∀ (pend : List Ident), ∀ (done : List Ident) (stack : List (Ident × Expr)),
      ss = done.reverse ++ pend →
      stack.map Prod.fst = done ++ ["output"] →
      (∃ vt et stack', stack = (vt, et) :: stack' ∧ PureRef et (pend.headD s0)) →
      ∀ (fuel : Nat), pend.length + 1 ≤ fuel →
      evalLoop d fuel ⟨[], stack⟩ = some (.error (.loopAt a.path s0)) := by
  intro pend
  induction pend with
  | nil =>
    intro done stack hdecomp hids htop fuel hfuel
    obtain ⟨vt, et, stack', rfl, href⟩ := htop
    obtain ⟨f, rfl⟩ : ∃ f, fuel = f + 1 := ⟨fuel - 1, by omega⟩
    have hmem : s0 ∈ ((vt, et) :: stack').map Prod.fst := by
      rw [hids]
      have : s0 ∈ done := by
        have h1 : s0 ∈ done.reverse := by
          rw [List.append_nil] at hdecomp
          rw [← hdecomp]
          exact hs0
        simpa using h1
      exact List.mem_append_left _ this
    have hany : (((vt, et) :: stack').any (fun f => f.1 == s0)) = true :=
      (any_fst_beq_iff _ s0).mpr hmem
    have hstep : evalStep d ⟨[], (vt, et) :: stack'⟩ =
        .done (.error (.loopAt a.path s0)) := by
      simp only [evalStep]
      rw [evalPureRef et s0 href]
      dsimp only
      rw [if_pos (hcco s0 hs0), if_pos hany, ha]
    simp only [evalLoop, hstep]
  | cons p pend' ih =>
    intro done stack hdecomp hids htop fuel hfuel
    obtain ⟨vt, et, stack', rfl, href⟩ := htop
    obtain ⟨f, rfl⟩ : ∃ f, fuel = f + 1 := ⟨fuel - 1, by omega⟩
    have hpmem : p ∈ ss := by
      rw [hdecomp]
      exact List.mem_append_right _ (List.mem_cons_self _ _)
    have hpnotdone : p ∉ done := by
      intro hmem
      have hdisj := List.disjoint_of_nodup_append (by rw [← hdecomp]; exact hnd)
      exact hdisj (by simpa using hmem) (List.mem_cons_self _ _)
    have hpnotout : p ≠ "output" := by
      intro hp
      have := hcco p hpmem
      rw [hp, output_not_cco] at this
      exact Bool.false_ne_true this
    have hany : (((vt, et) :: stack').any (fun f => f.1 == p)) = false := by
      rw [← Bool.not_eq_true]
      intro hmem
      have := (any_fst_beq_iff _ p).mp hmem
      rw [hids] at this
      rcases List.mem_append.mp this with hin | hout
      · exact hpnotdone hin
      · exact hpnotout (by simpa using hout)
    have hgetp : ss[done.length]? = some p := by
      rw [hdecomp, List.getElem?_append_right (by simp)]
      simp
    obtain ⟨e', hrw', hwrap, hnext⟩ := hchain done.length p hgetp
    have hsucc : PureRef e' (pend'.headD s0) := by
      cases hpd : pend' with
      | nil =>
        refine hwrap ?_
        rw [hdecomp, hpd]
        rw [List.getElem?_eq_none]
        simp
      | cons q rest' =>
        refine hnext q ?_
        rw [hdecomp, hpd]
        rw [List.getElem?_append_right (by simp)]
        simp
    have hstep : evalStep d ⟨[], (vt, et) :: stack'⟩ =
        .next ⟨[], (p, e') :: (vt, et) :: stack'⟩ := by
      simp only [evalStep]
      rw [evalPureRef et p (by simpa using href)]
      dsimp only
      rw [if_pos (hcco p hpmem), if_neg (by simp [hany]), hrw']
    simp only [evalLoop, hstep]
    refine ih (p :: done) ((p, e') :: (vt, et) :: stack') ?_ ?_ ?_ f (by simpa using hfuel)
    · rw [hdecomp]
      simp
    · rw [List.map_cons, hids]
      rfl
    · exact ⟨p, e', (vt, et) :: stack', rfl, hsucc⟩

/-! ## Lemmas: the acyclic run -/

theorem frame_facts (d : CcoDocument) (rank : Ident → Nat) (hGC : GoodClosure d rank)
    (v : Ident) (e : Expr)
    (h : d.get_by_subst_and_rewrite v = some (some e)) :
    Simple e = true ∧ ∀ w ∈ varsE e, GoodVar d w ∧ rank w < rank v := by
  obtain ⟨a, hga, hre⟩ := getRW_some_cases d v (some e) h
  obtain ⟨hmem, hsub⟩ := get_by_subst_some_facts d v a hga
  obtain ⟨e2, hre2, hs2, hv2⟩ := hGC a hmem
  rw [hre2] at hre
  obtain rfl : e = e2 := Option.some.inj hre
  rw [hsub] at hv2
  exact ⟨hs2, hv2⟩

theorem goodVar_getRW (d : CcoDocument) (rank : Ident → Nat) (hGC : GoodClosure d rank)
    (v : Ident) (hv : GoodVar d v) :
    ∃ e, d.get_by_subst_and_rewrite v = some (some e) := by
  obtain ⟨a, hga⟩ := Option.isSome_iff_exists.mp hv.2
  obtain ⟨hmem, _⟩ := get_by_subst_some_facts d v a hga
  obtain ⟨e2, hre2, _, _⟩ := hGC a hmem
  exact ⟨e2, by simp [CcoDocument.get_by_subst_and_rewrite, hga, hre2]⟩

theorem chain_lt_head (rank : Ident → Nat) :
    ∀ (l : List Ident) (x : Ident),
      (x :: l).Chain' (fun a b => rank a < rank b) → ∀ y ∈ l, rank x < rank y := by
  intro l
  induction l with
  | nil => intro x _ y hy; simp at hy
  | cons z t ih =>
    intro x hch y hy
    rw [List.chain'_cons] at hch
    rcases List.mem_cons.mp hy with rfl | hyt
    · exact hch.1
    · exact lt_trans hch.1 (ih z hch.2 y hyt)

theorem not_output_of_cco (v : Ident) (h : strStartsWith v "cco__" = true) :
    v ≠ "output" := by
  intro hv
  rw [hv, output_not_cco] at h
  exact Bool.false_ne_true h

theorem evalInv_step (d : CcoDocument) (E' : Expr) (rank : Ident → Nat)
    (hGC : GoodClosure d rank)
    (s s' : EvalState) (hinv : EvalInv d E' rank s)
    (h : evalStep d s = .next s') : EvalInv d E' rank s' := by
  obtain ⟨hnd, hiv, hdisj, frames, hframes, hfacts, hchain⟩ := hinv
  obtain ⟨current, e, rest, hst, hcase⟩ := evalStep_next_cases d s s' h
  rcases hcase with ⟨e', hev, hne, hs'⟩ | ⟨var, expr, hev, hcc, hany, hrw, hs'⟩
  · cases frames with
    | nil =>
      have hcomb : (current, e) :: rest = [("output", E')] := hst.symm.trans hframes
      injection hcomb with h1 h2
      exact absurd h2 hne
    | cons f fs =>
      obtain ⟨fc, fe⟩ := f
      have hcomb : (current, e) :: rest = (fc, fe) :: (fs ++ [("output", E')]) :=
        hst.symm.trans hframes
      injection hcomb with h1 h2
      injection h1 with hc1 hc2
      subst hc1
      subst hc2
      have hfhead := hfacts (current, e) (List.mem_cons_self _ _)
      have hcur_mem : (current, e) ∈ s.stack := by
        rw [hst]
        exact List.mem_cons_self _ _
      subst hs'
      refine ⟨?_, ?_, ?_, fs, h2, ?_, ?_⟩
      · simp only [List.map_cons, List.nodup_cons]
        refine ⟨?_, hnd⟩
        intro hcmem
        obtain ⟨kv, hkv, hkve⟩ := List.mem_map.mp hcmem
        exact hdisj kv hkv (current, e) hcur_mem hkve
      · intro kv hkv
        rcases List.mem_cons.mp hkv with rfl | hkv'
        · exact (evalExpr_ok_isValue s.ctx hiv).1 e
            (frame_facts d rank hGC current e hfhead.2).1 e' hev
        · exact hiv kv hkv'
      · intro kv hkv fr hfr
        rcases List.mem_cons.mp hkv with rfl | hkv'
        · show current ≠ fr.1
          have hfr2 : fr ∈ fs ++ [("output", E')] := h2 ▸ hfr
          rcases List.mem_append.mp hfr2 with hin | hout
          · have hlt := chain_lt_head rank (fs.map Prod.fst) current
              (by have := hchain; rw [List.map_cons] at this; exact this)
              fr.1 (List.mem_map.mpr ⟨fr, hin, rfl⟩)
            intro heq
            rw [heq] at hlt
            exact lt_irrefl _ hlt
          · have : fr = ("output", E') := by simpa using hout
            rw [this]
            exact not_output_of_cco current hfhead.1
        · exact hdisj kv hkv' fr (by rw [hst]; exact List.mem_cons_of_mem _ hfr)
      · intro fr hfr
        exact hfacts fr (List.mem_cons_of_mem _ hfr)
      · have := hchain
        rw [List.map_cons] at this
        exact this.tail
  · subst hs'
    refine ⟨hnd, hiv, ?_, (var, expr) :: frames, ?_, ?_, ?_⟩
    · intro kv hkv fr hfr
      rcases List.mem_cons.mp hfr with rfl | hfr'
      · show kv.1 ≠ var
        have hlook : alookup s.ctx var = none := (evalExpr_undefinedVar s.ctx e var hev).1
        have hnmem := alookup_none_not_mem s.ctx var hlook
        intro heq
        exact hnmem (List.mem_map.mpr ⟨kv, hkv, heq⟩)
      · exact hdisj kv hkv fr (by rw [hst]; exact hfr')
    · show (var, expr) :: (current, e) :: rest = ((var, expr) :: frames) ++ [("output", E')]
      rw [List.cons_append, ← hframes, hst]
    · intro fr hfr
      rcases List.mem_cons.mp hfr with rfl | hfr'
      · exact ⟨hcc, hrw⟩
      · exact hfacts fr hfr'
    · rw [List.map_cons]
      cases frames with
      | nil => simp
      | cons f fs =>
        obtain ⟨fc, fe⟩ := f
        have hcomb : (current, e) :: rest = (fc, fe) :: (fs ++ [("output", E')]) :=
          hst.symm.trans hframes
        injection hcomb with h1 h2
        injection h1 with hc1 hc2
        subst hc1
        subst hc2
        rw [List.map_cons]
        refine List.chain'_cons.mpr ⟨?_, by have := hchain; rwa [List.map_cons] at this⟩
        have hfhead := hfacts (current, e) (List.mem_cons_self _ _)
        have hvmem : var ∈ varsE e := (evalExpr_undefinedVar s.ctx e var hev).2
        exact ((frame_facts d rank hGC current e hfhead.2).2 var hvmem).2

theorem c1_run (d : CcoDocument) (E' : Expr) (rank : Ident → Nat)
    (hE' : Simple E' = true) (hEv : ∀ v ∈ varsE E', GoodVar d v)
    (hGC : GoodClosure d rank) :
    ∀ (fuel : Nat) (s : EvalState), EvalInv d E' rank s → measureOf d s < fuel →
      ∃ e2, evalLoop d fuel s = some (.ok e2) ∧ (toValue e2).isSome = true := by
  intro fuel
  induction fuel with
  | zero => intro s _ hm; omega
  | succ n ih =>
    intro s hinv hm
    cases hstep : evalStep d s with
    | next s' =>
      have hinv' := evalInv_step d E' rank hGC s s' hinv hstep
      have hlt := evalStep_next_measure d s s' hstep
      obtain ⟨e2, h1, h2⟩ := ih s' hinv' (by omega)
      refine ⟨e2, ?_, h2⟩
      simp only [evalLoop, hstep]
      exact h1
    | done r =>
      obtain ⟨hnd, hiv, hdisj, frames, hframes, hfacts, hchain⟩ := hinv
      rcases evalStep_done_cases d s r hstep with ⟨hemp, _⟩ | ⟨current, e, rest, hst, hc⟩
      · rw [hframes] at hemp
        simp at hemp
      · have htop : Simple e = true ∧ (∀ v ∈ varsE e, GoodVar d v) ∧
            (∀ v ∈ varsE e, (s.stack.any (fun f => f.1 == v)) = false) := by
          cases frames with
          | nil =>
            have hcomb : (current, e) :: rest = [("output", E')] := hst.symm.trans hframes
            injection hcomb with h1 h2
            injection h1 with hc1 hc2
            subst hc1
            subst hc2
            refine ⟨hE', hEv, ?_⟩
            intro v hv
            have hne : "output" ≠ v := fun hh => not_output_of_cco v (hEv v hv).1 hh.symm
            rw [hframes]
            simp only [List.nil_append, List.any_cons, List.any_nil, Bool.or_false]
            exact beq_eq_false_iff_ne.mpr hne
          | cons f fs =>
            obtain ⟨fc, fe⟩ := f
            have hcomb : (current, e) :: rest = (fc, fe) :: (fs ++ [("output", E')]) :=
              hst.symm.trans hframes
            injection hcomb with h1 h2
            injection h1 with hc1 hc2
            subst hc1
            subst hc2
            have hfhead := hfacts (current, e) (List.mem_cons_self _ _)
            have hff := frame_facts d rank hGC current e hfhead.2
            refine ⟨hff.1, fun v hv => (hff.2 v hv).1, ?_⟩
            intro v hv
            have hrlt := (hff.2 v hv).2
            rw [← Bool.not_eq_true]
            intro hanytrue
            have hvmem := (any_fst_beq_iff _ v).mp hanytrue
            rw [hframes] at hvmem
            simp only [List.map_cons, List.map_append, List.map_cons, List.map_nil] at hvmem
            rcases List.mem_cons.mp hvmem with rfl | hvmem'
            · exact lt_irrefl _ hrlt
            · rcases List.mem_append.mp hvmem' with hin | hout
              · have hlt := chain_lt_head rank (fs.map Prod.fst) current
                  (by have := hchain; rw [List.map_cons] at this; exact this) v hin
                omega
              · have hvout : v = "output" := by simpa using hout
                exact not_output_of_cco v ((hff.2 v hv).1).1 hvout
        rcases hc with ⟨e2, hev, hrest, rfl⟩ | ⟨hoe, _⟩ | ⟨v, hev, hncc, _⟩ |
            ⟨v, hev, hcc, hany, _⟩ | ⟨v, hev, hcc, hany, hbad⟩
        · refine ⟨e2, ?_, ?_⟩
          · simp only [evalLoop, hstep]
          · exact isValue_toValue_isSome.1 e2
              ((evalExpr_ok_isValue s.ctx hiv).1 e htop.1 e2 hev)
        · exact absurd hoe ((evalExpr_simple_no_otherErr s.ctx).1 e htop.1)
        · have hvmem := (evalExpr_undefinedVar s.ctx e v hev).2
          have := (htop.2.1 v hvmem).1
          rw [hncc] at this
          exact absurd this (Bool.false_ne_true)
        · have hvmem := (evalExpr_undefinedVar s.ctx e v hev).2
          have hfalse := htop.2.2 v hvmem
          rw [hst] at hfalse
          rw [hfalse] at hany
          exact absurd hany (Bool.false_ne_true)
        · have hvmem := (evalExpr_undefinedVar s.ctx e v hev).2
          obtain ⟨e3, hrw3⟩ := goodVar_getRW d rank hGC v (htop.2.1 v hvmem)
          rcases hbad with ⟨hn, _⟩ | ⟨hsn, _⟩
          · rw [hn] at hrw3
            exact Option.noConfusion hrw3
          · rw [hsn] at hrw3
            exact Option.noConfusion (Option.some.inj hrw3)

/-! ## Lemmas: traversal rewriting -/

theorem apply_substitution_drop (t : Traversal) (e : Expr) (r : Nat) :
    t.apply_substitution e (r + 1) =
      some (Traversal.squash { expr := e, operators := t.operators.drop r }) := by
  simp only [Traversal.apply_substitution]
  by_cases hle : t.operators.length ≤ r
  · rw [if_pos hle, List.drop_eq_nil_of_le hle]
  · have hlt : r < t.operators.length := Nat.lt_of_not_le hle
    rw [if_neg hle, List.rotate_eq_drop_append_take (le_of_lt hlt),
      List.take_left' (by simp)]

theorem Node.get_length_le (p : List Ident) :
    ∀ (n : Node) (i : Nat) (rest : List Ident),
      n.get p = some (i, rest) → rest.length ≤ p.length := by
  induction p with
  | nil =>
    intro n i rest h
    simp only [Node.get] at h
    cases hv : n.value with
    | none => rw [hv] at h; exact absurd h (by simp)
    | some x =>
      rw [hv] at h
      obtain ⟨_, hr⟩ : x = i ∧ ([] : List Ident) = rest := by simpa using h
      simp [← hr]
  | cons k kr ih =>
    intro n i rest h
    simp only [Node.get] at h
    cases hl : alookup n.children k with
    | some child =>
      rw [hl] at h
      dsimp only at h
      cases hc : child.get kr with
      | some result =>
        rw [hc] at h
        obtain ⟨hi, hr⟩ : result.1 = i ∧ result.2 = rest := by
          obtain ⟨a, b⟩ := result
          simpa using h
        have := ih child result.1 result.2 (by simpa using hc)
        rw [hr] at this
        exact Nat.le_succ_of_le this
      | none =>
        rw [hc] at h
        cases hv : n.value with
        | none => rw [hv] at h; exact absurd h (by simp)
        | some x =>
          rw [hv] at h
          obtain ⟨_, hr⟩ : x = i ∧ k :: kr = rest := by simpa using h
          simp [← hr]
    | none =>
      rw [hl] at h
      dsimp only at h
      cases hv : n.value with
      | none => rw [hv] at h; exact absurd h (by simp)
      | some x =>
        rw [hv] at h
        obtain ⟨_, hr⟩ : x = i ∧ k :: kr = rest := by simpa using h
        simp [← hr]

theorem Tree.get_length_lt (tree : Tree) (p : List Ident) (i : Nat) (rest : List Ident)
    (h : Tree.get tree p = some (i, rest)) : rest.length < p.length := by
  cases p with
  | nil => simp [Tree.get] at h
  | cons k kr =>
    simp only [Tree.get] at h
    cases hl : alookup tree k with
    | none => rw [hl] at h; exact absurd h (by simp)
    | some child =>
      rw [hl] at h
      simp only [Option.some_bind] at h
      exact Nat.lt_succ_of_le (Node.get_length_le kr child i rest h)

theorem get_most_specific_node_bounds (d : CcoDocument) (p : List Ident) (s : Ident)
    (n : Nat) (h : d.get_most_specific_node p = some (s, n)) :
    1 ≤ n ∧ n ≤ p.length := by
  simp only [CcoDocument.get_most_specific_node] at h
  cases hg : Tree.get d.tree p with
  | none => rw [hg] at h; exact absurd h (by simp)
  | some r =>
    rw [hg] at h
    obtain ⟨ri, rest⟩ := r
    obtain ⟨_, hn⟩ : d.substAt ri = s ∧ p.length - rest.length = n := by simpa using h
    have hlt := Tree.get_length_lt d.tree p ri rest hg
    omega

theorem take_leading_getAttrs (ops : List TOp) :
    ∀ (m : Nat), m ≤ (leadingGetAttrs ops).length →
      ∀ op ∈ ops.take m, ∃ k, op = .getAttr k := by
  induction ops with
  | nil => intro m _ op hop; simp at hop
  | cons o rest ih =>
    intro m hm op hop
    cases o with
    | getAttr k =>
      cases m with
      | zero => simp at hop
      | succ m' =>
        simp only [List.take_succ_cons, List.mem_cons] at hop
        cases hop with
        | inl h => exact ⟨k, h⟩
        | inr h =>
          refine ih m' ?_ op h
          simpa [leadingGetAttrs] using hm
    | indexNum nn =>
      have : m = 0 := by simpa [leadingGetAttrs] using hm
      subst this
      simp at hop
    | indexOther =>
      have : m = 0 := by simpa [leadingGetAttrs] using hm
      subst this
      simp at hop

/-! ## Claims C3 and C4 -/

/-- C3: for a traversal rooted at a variable that does not start with
`cco__`, when the most-specific-ancestor lookup on its longest leading
path matches with length `n`, `AttributeReferenceRewriter` replaces the
root with the matched subst and drops exactly the first `n − 1`
operators (all of them `GetAttr`s, since `n` is bounded by the longest
path), keeping the remaining operators in order; with no match the
traversal is unchanged. -/
theorem c3_attribute_reference_rewriter (d : CcoDocument) (t : Traversal) (v : Ident)
    (hroot : t.expr = .var v) (hncco : strStartsWith v "cco__" = false) :
    (∀ (s : Ident) (n : Nat), d.get_most_specific_node t.get_longest_path = some (s, n) →
       AttributeReferenceRewriter.visit_mut d t =
         some { expr := .var s, operators := t.operators.drop (n - 1) } ∧
       1 ≤ n ∧ n ≤ t.get_longest_path.length ∧
       (∀ op ∈ t.operators.take (n - 1), ∃ k, op = .getAttr k)) ∧
    (d.get_most_specific_node t.get_longest_path = none →
       AttributeReferenceRewriter.visit_mut d t = some t) := by
  constructor
  · intro s n h
    obtain ⟨h1, hlen⟩ := get_most_specific_node_bounds d _ s n h
    obtain ⟨m, rfl⟩ : ∃ m, n = m + 1 := ⟨n - 1, by omega⟩
    refine ⟨?_, h1, hlen, ?_⟩
    · simp only [AttributeReferenceRewriter.visit_mut, hroot, hncco, if_neg, h,
        Bool.false_eq_true, not_false_eq_true]
      rw [apply_substitution_drop]
      simp [Traversal.squash]
    · have hp : t.get_longest_path = v :: leadingGetAttrs t.operators := by
        simp [Traversal.get_longest_path, hroot]
      refine take_leading_getAttrs t.operators (m + 1 - 1) ?_
      rw [hp] at hlen
      simp only [List.length_cons] at hlen
      omega
  · intro h
    simp [AttributeReferenceRewriter.visit_mut, hroot, hncco, h]

/-- Witness for C3: `x.a.v[0]` over the cross-reference document
rewrites to `cco__attribute_x__a__v[0]` (matched length 3, two `GetAttr`
operators dropped, the index preserved). -/
theorem c3_witness :
    AttributeReferenceRewriter.visit_mut docCross travCrossWitness =
      some { expr := .var "cco__attribute_x__a__v", operators := [.indexNum 0] } := by
  have h := (c3_attribute_reference_rewriter docCross travCrossWitness "x" rfl (by decide)).1
    "cco__attribute_x__a__v" 3 rfl
  simpa using h.1

/-- C4: on a traversal rooted at the variable `self`, `SelfRewriter`
with a non-empty `block_name = L0 :: rest` rewrites an in-range integer
index `self[i]` to the string literal `block_name[i]`, consuming the
variable and the index; in every other case `self` alone is replaced by
the traversal `L0.….Lk`, flattened in place, with all operators
preserved. -/
theorem c4_self_rewriter (l0 : Ident) (rest : List Ident) (t : Traversal)
    (hroot : t.expr = .var "self") :
    (∀ (i : Int) (idx : Nat) (ops : List TOp), t.operators = .indexNum i :: ops →
       numAsU64 i = some idx → ∀ hlt : idx < (l0 :: rest).length,
       SelfRewriter.visit_mut (l0 :: rest) t =
         some { expr := .str ((l0 :: rest).get ⟨idx, hlt⟩), operators := ops }) ∧
    ((∀ (i : Int) (ops : List TOp), t.operators = .indexNum i :: ops →
        ∀ idx : Nat, numAsU64 i = some idx → ¬ idx < (l0 :: rest).length) →
       SelfRewriter.visit_mut (l0 :: rest) t =
         some { expr := .var l0, operators := rest.map .getAttr ++ t.operators }) := by
  constructor
  · intro i idx ops hops hnum hlt
    simp only [SelfRewriter.visit_mut, hroot, if_pos rfl, hops, List.head?_cons, hnum]
    rw [dif_pos hlt]
    have h2 : ({ expr := .var "self", operators := t.operators } : Traversal)
        = t := by
      cases t with
      | mk te tops => simp_all
    rw [show (2 : Nat) = 1 + 1 from rfl]
    rw [apply_substitution_drop]
    simp [Traversal.squash, hops]
  · intro hno
    simp only [SelfRewriter.visit_mut, hroot, if_pos rfl]
    have hfb : t.apply_substitution (.trav (.var l0) (List.map TOp.getAttr rest)) 1 =
        some { expr := .var l0, operators := rest.map .getAttr ++ t.operators } := by
      rw [show (1 : Nat) = 0 + 1 from rfl, apply_substitution_drop]
      simp [Traversal.squash]
    cases hops : t.operators with
    | nil => simpa [hops] using hfb
    | cons o ops =>
      cases o with
      | getAttr k => simpa [hops] using hfb
      | indexOther => simpa [hops] using hfb
      | indexNum i =>
        simp only [List.head?_cons]
        cases hnum : numAsU64 i with
        | none => simpa [hops, hnum] using hfb
        | some idx =>
          have hnl := hno i ops hops idx hnum
          simp only [hops, hnum, List.head?_cons, dif_neg hnl]
          simpa [hops] using hfb

/-- Witness for C4: `self[1].z` with block name `["svc", "api"]`
rewrites to the string `"api"` followed by `.z`. -/
theorem c4_witness :
    SelfRewriter.visit_mut ["svc", "api"] travSelfWitness =
      some { expr := .str "api", operators := [.getAttr "z"] } := by
  have h := (c4_self_rewriter "svc" ["api"] travSelfWitness rfl).1 1 1 [.getAttr "z"]
    rfl rfl (by decide)
  simpa using h

/-! ## Claims C5–C10 -/

/-- C5: the claim states the builder is deterministic in input order.
The `data_groups` map of `CcoDocument::new` is a `std::collections::HashMap`
and Phase 2 iterates it, so the addressable ordering depends on the hash
map's unspecified iteration order: two runs on the same store may visit
the groups as `[a, b]` or as the permutation `[b, a]`, producing
different addressable orderings. -/
theorem c5_builder_depends_on_group_order :
    (["a", "b"] : List Ident).Perm ["b", "a"] ∧
    (CcoDocument.new storeTwoGroups ["a", "b"]).pathsOf ≠
      (CcoDocument.new storeTwoGroups ["b", "a"]).pathsOf := by
  constructor
  · decide
  · decide

/-- C6: the claim states all Phase-1 issues are collected in one pass.
The missing-label `data` arm ends with `break`, so on
`data {}` followed by an unknown root block the builder returns only
`DataBlockLabelMissing(0)`: the `UnknownBlockType(1)` issue of the
remaining root block is never collected, whatever the group order. -/
theorem c6_break_stops_issue_collection (order : List Ident) :
    (CcoDocument.new storeBreak order).issuesOf = some [.dataBlockLabelMissing 0] := rfl

/-- C7, counterexample: the claim states substs uniquely identify their
addressables.  In the built table of `storeJoinClash` the distinct
addressables at paths `[a__b]` and `[a, b]` share the subst
`cco__block_a__b`, because both paths join to the same
double-underscore string. -/
theorem c7_counterexample :
    CcoDocument.new storeJoinClash ["a__b", "a"] = .built docJoinClash ∧
    (docJoinClash.addressables[0]?).map (fun a => a.subst) = some "cco__block_a__b" ∧
    (docJoinClash.addressables[1]?).map (fun a => a.subst) = some "cco__block_a__b" ∧
    (docJoinClash.addressables[0]?).map (fun a => a.path) = some ["a__b"] ∧
    (docJoinClash.addressables[1]?).map (fun a => a.path) = some ["a", "b"] :=
  ⟨rfl, rfl, rfl, rfl, rfl⟩

/-- C7, amended: the subst determines the double-underscore join of the
path, so two addressables of a built document whose paths have distinct
joins have distinct substs; uniqueness fails only when distinct paths
join to the same string. -/
theorem c7_subst_injective_up_to_join (store : HclDocuments) (order : List Ident)
    (d : CcoDocument) (h : CcoDocument.new store order = .built d) :
    ∀ a ∈ d.addressables, ∀ b ∈ d.addressables,
      String.intercalate "__" a.path ≠ String.intercalate "__" b.path →
      a.subst ≠ b.subst := by
  obtain ⟨_, hSF⟩ := new_DocInv store order d h
  intro a ha b hb hne heq
  rw [hSF a ha, hSF b hb] at heq
  exact hne (subst_join_inj _ _ _ _ heq)

/-- Witness for C7 at `storeJoinClash`: the `Block` at `[a__b]` and the
`Virtual` at `[a]` have distinct joins, hence distinct substs. -/
theorem c7_witness :
    (addrAt docJoinClash 0).subst ≠ (addrAt docJoinClash 2).subst :=
  c7_subst_injective_up_to_join storeJoinClash ["a__b", "a"] docJoinClash rfl
    (addrAt docJoinClash 0) (by decide) (addrAt docJoinClash 2) (by decide) (by decide)

/-- C8: after every successful `CcoDocument::new` (any store, any group
iteration order), the table and tree are mutually consistent: no two
addressables share a path, and walking any addressable's path from the
root reaches a node whose value is that addressable's table index. -/
theorem c8_table_tree_consistent (store : HclDocuments) (order : List Ident)
    (d : CcoDocument) (h : CcoDocument.new store order = .built d) :
    (∀ (i j : Nat) (a b : Addressable), d.addressables[i]? = some a →
       d.addressables[j]? = some b → i ≠ j → a.path ≠ b.path) ∧
    (∀ (i : Nat) (a : Addressable), d.addressables[i]? = some a →
       Tree.valueAtExact d.tree a.path = some i) := by
  obtain ⟨hTT, _⟩ := new_DocInv store order d h
  constructor
  · intro i j a b hai hbj hij hpath
    have h1 : Tree.valueAtExact d.tree a.path = some i := (hTT a.path i).mpr ⟨a, hai, rfl⟩
    have h2 : Tree.valueAtExact d.tree a.path = some j := (hTT a.path j).mpr ⟨b, hbj, hpath.symm⟩
    rw [h1] at h2
    exact hij (Option.some.inj h2)
  · intro i a hai
    exact (hTT a.path i).mpr ⟨a, hai, rfl⟩

/-- Witness for C8 at the cross-reference store. -/
theorem c8_witness :
    (addrAt docCross 0).path ≠ (addrAt docCross 1).path ∧
    Tree.valueAtExact docCross.tree (addrAt docCross 0).path = some 0 :=
  ⟨(c8_table_tree_consistent storeCross ["x"] docCross rfl).1 0 1
     (addrAt docCross 0) (addrAt docCross 1) rfl rfl (by decide),
   (c8_table_tree_consistent storeCross ["x"] docCross rfl).2 0 (addrAt docCross 0) rfl⟩

/-- C9: after every successful `CcoDocument::new`, no `DefaultAttribute`
shares its path with an `Attribute`: the direct attribute is inserted
first and the later default insert at an occupied path is silently
dropped, so the paths of the two kinds never collide. -/
theorem c9_no_default_at_attribute_path (store : HclDocuments) (order : List Ident)
    (d : CcoDocument) (h : CcoDocument.new store order = .built d) :
    ∀ (i j : Nat) (a b : Addressable), d.addressables[i]? = some a →
      d.addressables[j]? = some b →
      a.kind = .defaultAttribute → b.kind = .attribute → a.path ≠ b.path := by
  obtain ⟨hTT, _⟩ := new_DocInv store order d h
  intro i j a b hai hbj hka hkb hpath
  by_cases hij : i = j
  · subst hij
    rw [hai] at hbj
    obtain rfl := Option.some.inj hbj
    rw [hka] at hkb
    exact Kind.noConfusion hkb
  · have h1 : Tree.valueAtExact d.tree a.path = some i := (hTT a.path i).mpr ⟨a, hai, rfl⟩
    have h2 : Tree.valueAtExact d.tree a.path = some j := (hTT a.path j).mpr ⟨b, hbj, hpath.symm⟩
    rw [h1] at h2
    exact hij (Option.some.inj h2)

/-- Witness for C9 at the defaults store: the `DefaultAttribute` at
`kind.one.version` and the `Attribute` at `kind.two.version`. -/
theorem c9_witness : (addrAt docDefaults 0).path ≠ (addrAt docDefaults 2).path :=
  c9_no_default_at_attribute_path storeDefaults ["kind"] docDefaults rfl 0 2
    (addrAt docDefaults 0) (addrAt docDefaults 2) rfl rfl rfl rfl

/-- C10: `get_by_subst` is `find?` over the table, so it returns the
addressable at the lowest index whose subst matches, and `none` when no
entry matches; `get_by_subst_and_rewrite` therefore rewrites that
earliest entry. -/
theorem c10_get_by_subst_lowest_index (d : CcoDocument) (s : Ident) :
    ((∀ a ∈ d.addressables, a.subst ≠ s) → d.get_by_subst s = none) ∧
    (∀ (i : Nat) (a : Addressable), d.addressables[i]? = some a → a.subst = s →
      (∀ (j : Nat) (b : Addressable), j < i → d.addressables[j]? = some b → b.subst ≠ s) →
      d.get_by_subst s = some a ∧
      d.get_by_subst_and_rewrite s = some (d.rewriteFor a)) := by
  constructor
  · intro hall
    exact find?_eq_none_of_all _ _ (fun a ha => by simp [hall a ha])
  · intro i a hai hs hleast
    have hf : d.addressables.find? (fun x => x.subst == s) = some a := by
      apply find?_at_least_index _ _ i a hai (by simp [hs])
      intro j b hj hbj
      simp [hleast j b hj hbj]
    exact ⟨hf, by simp [CcoDocument.get_by_subst_and_rewrite, CcoDocument.get_by_subst, hf]⟩

/-- Witness for C10 at the duplicate-subst document: the lookup observes
the earlier of the two addressables sharing `cco__block_a__b`. -/
theorem c10_witness :
    docJoinClash.get_by_subst "cco__block_a__b" = some (addrAt docJoinClash 0) ∧
    docJoinClash.get_by_subst_and_rewrite "cco__block_a__b" =
      some (docJoinClash.rewriteFor (addrAt docJoinClash 0)) :=
  (c10_get_by_subst_lowest_index docJoinClash "cco__block_a__b").2 0
    (addrAt docJoinClash 0) rfl rfl
    (fun j _ hj _ => absurd hj (Nat.not_lt_zero j))

/-! ## Claim C1 -/

/-- The cross-reference document satisfies the closure condition under
`rankCross`: every addressable rewrites to a `Simple` expression whose
variables are resolvable substs of strictly smaller rank. -/
theorem goodClosure_cross : GoodClosure docCross rankCross := by
  intro a ha
  have ha' : a ∈ [addrAt docCross 0, addrAt docCross 1, addrAt docCross 2,
      addrAt docCross 3, addrAt docCross 4] := by
    rw [show [addrAt docCross 0, addrAt docCross 1, addrAt docCross 2,
      addrAt docCross 3, addrAt docCross 4] = docCross.addressables from rfl]
    exact ha
  simp only [List.mem_cons, List.not_mem_nil, or_false] at ha'
  rcases ha' with rfl | rfl | rfl | rfl | rfl
  · exact ⟨.num 1, rfl, rfl, by decide⟩
  · exact ⟨.obj (.cons "v" (.var "cco__attribute_x__a__v") .nil), rfl, rfl, by decide⟩
  · exact ⟨.trav (.var "cco__attribute_x__a__v") [], rfl, rfl, by decide⟩
  · exact ⟨.obj (.cons "v" (.var "cco__attribute_x__b__v") .nil), rfl, rfl, by decide⟩
  · exact ⟨.obj (.cons "a" (.var "cco__block_x__a")
      (.cons "b" (.var "cco__block_x__b") .nil)), rfl, rfl, by decide⟩

/-- C1, counterexample: the claim promises `Ok` for every expression
that (after rewriting) refers only to substs of existing addressables
and is acyclic.  Over the empty store — which builds — the expression
`[][0]` refers to nothing at all and has no cycles, yet evaluation
returns the evaluation-failure error because indexing an empty array is
a type error. -/
theorem c1_counterexample :
    CcoDocument.new ⟨[], []⟩ [] = .built emptyDoc ∧
    varsE exprIndexEmpty = [] ∧
    rewriteWith (AttributeReferenceRewriter.visit_mut emptyDoc) exprIndexEmpty =
      some exprIndexEmpty ∧
    emptyDoc.evaluate_in_context exprIndexEmpty =
      .error (.evalFailed .otherErr) ∧
    (∀ v : Value, emptyDoc.evaluate_in_context exprIndexEmpty ≠ .ok v) := by
  refine ⟨rfl, rfl, rfl, rfl, ?_⟩
  intro v h
  have h2 : (Except.error (CcoError.evalFailed EvalErr.otherErr) :
      Except CcoError Value) = .ok v := h
  exact Except.noConfusion h2

/-- C1 (amended): for every document and root expression whose rewriting
succeeds and yields a `Simple` expression referring only to resolvable
substs, under an acyclicity witness (a rank function decreasing along
the rewritten dependency edges), `evaluate_in_context` returns `Ok` with
a value, and after any number of resolver steps the context keys are
distinct — every subst is bound at most once.  The original claim's
unconditional version over arbitrary non-referring expressions is
refuted by `c1_counterexample`. -/
theorem c1_acyclic_eval_ok (d : CcoDocument) (rank : Ident → Nat) (E E' : Expr)
    (hrw : rewriteWith (AttributeReferenceRewriter.visit_mut d) E = some E')
    (hE' : Simple E' = true)
    (hEv : ∀ v ∈ varsE E', GoodVar d v)
    (hGC : GoodClosure d rank) :
    (∃ v, d.evaluate_in_context E = .ok v) ∧
    (∀ (n : Nat) (s' : EvalState),
      stepN d n ⟨[], [("output", E')]⟩ = some s' →
        (s'.ctx.map Prod.fst).Nodup) := by
  have hinit : EvalInv d E' rank ⟨[], [("output", E')]⟩ := by
    refine ⟨by simp, by simp, by simp, [], rfl, by simp, by simp⟩
  constructor
  · obtain ⟨e2, hloop, htv⟩ := c1_run d E' rank hE' hEv hGC (evalFuel d)
      ⟨[], [("output", E')]⟩ hinit (initial_measure_lt d E')
    obtain ⟨v, hv⟩ := Option.isSome_iff_exists.mp htv
    refine ⟨v, ?_⟩
    unfold CcoDocument.evaluate_in_context
    rw [hrw]
    dsimp only
    rw [hloop]
    dsimp only
    rw [hv]
  · have hpres : ∀ (n : Nat) (s s' : EvalState), EvalInv d E' rank s →
        stepN d n s = some s' → EvalInv d E' rank s' := by
      intro n
      induction n with
      | zero =>
        intro s s' hinv h
        obtain rfl : s = s' := by simpa [stepN] using h
        exact hinv
      | succ m ih =>
        intro s s' hinv h
        simp only [stepN] at h
        cases hstep : evalStep d s with
        | done r => rw [hstep] at h; exact Option.noConfusion h
        | next s2 =>
          rw [hstep] at h
          exact ih s2 s' (evalInv_step d E' rank hGC s s2 hinv hstep) h
    intro n s' h
    exact (hpres n ⟨[], [("output", E')]⟩ s' hinit h).1

/-- Witness for C1 at the cross-reference document: the root expression
`x` demands the whole rollup; evaluation succeeds and every resolver
state has distinct context keys. -/
theorem c1_witness :
    (∃ v, docCross.evaluate_in_context (.var "x") = .ok v) ∧
    (∀ (n : Nat) (s' : EvalState),
      stepN docCross n ⟨[], [("output", .var "cco__virtual_x")]⟩ = some s' →
        (s'.ctx.map Prod.fst).Nodup) :=
  c1_acyclic_eval_ok docCross rankCross (.var "x") (.var "cco__virtual_x")
    rfl rfl (by decide) goodClosure_cross

/-! ## Claim C2 -/

/-- C2, counterexample: the claim states that whenever two addressables
reference each other, demanding one of them ends in a cycle error.  In
`docCycleUserVar` the two `v` attributes reference each other, but the
first also holds the unknown user variable `oops`: evaluation reports
that as an eval failure before the resolver ever reaches the second
dependency, so no cycle error is produced. -/
theorem c2_counterexample :
    (∃ ea eb,
      docCycleUserVar.get_by_subst_and_rewrite "cco__attribute_x__a__v" =
        some (some ea) ∧
      docCycleUserVar.get_by_subst_and_rewrite "cco__attribute_x__b__v" =
        some (some eb) ∧
      "cco__attribute_x__b__v" ∈ varsE ea ∧
      "cco__attribute_x__a__v" ∈ varsE eb) ∧
    docCycleUserVar.evaluate_in_context exprDemandCycle =
      .error (.evalFailed (.undefinedVar "oops")) ∧
    (∀ (p : List Ident) (v : Ident),
      docCycleUserVar.evaluate_in_context exprDemandCycle ≠
        .error (.loopAt p v)) ∧
    (∀ v : Ident,
      docCycleUserVar.evaluate_in_context exprDemandCycle ≠
        .error (.loopRaw v)) := by
  refine ⟨⟨.arr (.cons (.var "oops")
      (.cons (.trav (.var "cco__attribute_x__b__v") []) .nil)),
    .trav (.var "cco__attribute_x__a__v") [], rfl, rfl, by decide, by decide⟩,
    rfl, ?_, ?_⟩
  · intro p v h
    have h2 : (Except.error (CcoError.evalFailed (EvalErr.undefinedVar "oops")) :
        Except CcoError Value) = .error (.loopAt p v) := h
    exact CcoError.noConfusion (Except.error.inj h2)
  · intro v h
    have h2 : (Except.error (CcoError.evalFailed (EvalErr.undefinedVar "oops")) :
        Except CcoError Value) = .error (.loopRaw v) := h
    exact CcoError.noConfusion (Except.error.inj h2)

/-- C2 (amended): if the root expression rewrites to a bare reference to
the head of a chain of substitution identifiers — distinct reserved
names, each resolving and rewriting to a bare reference to the next, the
last referring back to the head — then `evaluate_in_context` terminates
with a cycle error naming the path of the addressable the head resolves
to.  This is the code's behaviour on pure reference cycles of any
length; the original claim's unconditional version over arbitrary
mutually referencing expressions is refuted by `c2_counterexample`. -/
theorem c2_cycle_error (d : CcoDocument) (ss : List Ident) (s0 : Ident)
    (E E' : Expr)
    (hrw : rewriteWith (AttributeReferenceRewriter.visit_mut d) E = some E')
    (href : PureRef E' s0)
    (hhead : ss.head? = some s0)
    (hnd : ss.Nodup)
    (hcco : ∀ s ∈ ss, strStartsWith s "cco__" = true)
    (hchain : ∀ (i : Nat) (v : Ident), ss[i]? = some v →
       ∃ e, d.get_by_subst_and_rewrite v = some (some e) ∧
         (ss[i + 1]? = none → PureRef e s0) ∧
         (∀ w, ss[i + 1]? = some w → PureRef e w)) :
    ∃ a, d.get_by_subst s0 = some a ∧
      d.evaluate_in_context E = .error (.loopAt a.path s0) := by
  cases ss with
  | nil => exact absurd hhead (by simp)
  | cons h0 t =>
    rw [List.head?_cons] at hhead
    obtain rfl := Option.some.inj hhead
    have hget0 : (h0 :: t)[0]? = some h0 := by simp
    obtain ⟨e0, hrw0, _⟩ := hchain 0 h0 hget0
    obtain ⟨a, hga, _⟩ := getRW_some_cases d h0 (some e0) hrw0
    refine ⟨a, hga, ?_⟩
    have hsub : ∀ x ∈ h0 :: t, x ∈ d.addressables.map (fun b => b.subst) := by
      intro x hx
      obtain ⟨i, hi, hEq⟩ := List.getElem_of_mem hx
      have hgi : (h0 :: t)[i]? = some x := by
        rw [List.getElem?_eq_getElem hi, hEq]
      obtain ⟨e, hrwe, _⟩ := hchain i x hgi
      obtain ⟨b, hgb, _⟩ := getRW_some_cases d x (some e) hrwe
      obtain ⟨hmem, hsubst⟩ := get_by_subst_some_facts d x b hgb
      exact List.mem_map.mpr ⟨b, hmem, hsubst⟩
    have hlen : (h0 :: t).length ≤ d.addressables.length := by
      have h1 : (h0 :: t).toFinset.card = (h0 :: t).length :=
        List.toFinset_card_of_nodup hnd
      have h2 : (h0 :: t).toFinset ⊆
          (d.addressables.map (fun b => b.subst)).toFinset := by
        intro x hx
        exact List.mem_toFinset.mpr (hsub x (List.mem_toFinset.mp hx))
      have h3 := Finset.card_le_card h2
      have h4 := (d.addressables.map (fun b => b.subst)).toFinset_card_le
      rw [List.length_map] at h4
      omega
    have hfuel : (h0 :: t).length + 1 ≤ evalFuel d := by
      simp only [evalFuel]
      omega
    have hrun := c2_run d (h0 :: t) h0 a hnd hcco (List.mem_cons_self _ _) hga hchain
      (h0 :: t) [] [("output", E')] rfl rfl
      ⟨"output", E', [], rfl, href⟩ (evalFuel d) hfuel
    unfold CcoDocument.evaluate_in_context
    rw [hrw]
    dsimp only
    rw [hrun]

/-- Witness for C2 at the cycle store: `x.a.v` over
`data x a { v = x.b.v }`, `data x b { v = x.a.v }` yields the cycle
error at path `x.a.v`. -/
theorem c2_witness :
    ∃ a, docCycle.get_by_subst "cco__attribute_x__a__v" = some a ∧
      docCycle.evaluate_in_context exprDemandCycle =
        .error (.loopAt a.path "cco__attribute_x__a__v") :=
  c2_cycle_error docCycle cycleSubsts "cco__attribute_x__a__v" exprDemandCycle
    (.trav (.var "cco__attribute_x__a__v") []) rfl (Or.inr rfl) rfl
    (by decide) (by decide)
    (by
      intro i v hv
      cases i with
      | zero =>
        have h2 : some "cco__attribute_x__a__v" = some v := hv
        obtain rfl := Option.some.inj h2
        refine ⟨.trav (.var "cco__attribute_x__b__v") [], rfl, ?_, ?_⟩
        · intro h
          have h3 : (some "cco__attribute_x__b__v" : Option Ident) = none := h
          exact Option.noConfusion h3
        · intro w hw
          have h3 : some "cco__attribute_x__b__v" = some w := hw
          obtain rfl := Option.some.inj h3
          exact Or.inr rfl
      | succ i =>
        cases i with
        | zero =>
          have h2 : some "cco__attribute_x__b__v" = some v := hv
          obtain rfl := Option.some.inj h2
          refine ⟨.trav (.var "cco__attribute_x__a__v") [], rfl, ?_, ?_⟩
          · intro _
            exact Or.inr rfl
          · intro w hw
            have h3 : (none : Option Ident) = some w := hw
            exact Option.noConfusion h3
        | succ n =>
          have h2 : (none : Option Ident) = some v := hv
          exact Option.noConfusion h2)

end Cco
